import Mathlib

/-!
# Verification of the libics generalized tensor linear-algebra engine

This file models the data model and operations of the `libics` repository that
the specification describes: the axis remapper (`vectorize`/`tensorize`), the
tensor algebra operations (`tensormul`, `tensorinv`, `tensorsolve`), the
`LinearSystem` class hierarchy with its eigenbasis representation, the peak
finder of `libics/tools/math/signal.py`, and the `Memoize` decorator of
`libics/util/function.py`, and proves the specified properties about them.

Machine floating-point arithmetic is modelled by exact field arithmetic, so
"within numerical tolerance" statements are proved as exact equalities of the
idealized computation.
-/

namespace Libics

/-- A multi-index `idx` is valid for shape `s` when it has one component per
axis and every component is below the corresponding axis size. -/
def ValidIdx (s idx : List ℕ) : Prop :=
  idx.length = s.length ∧ ∀ i, i < s.length → idx.getD i 0 < s.getD i 0

instance (s idx : List ℕ) : Decidable (ValidIdx s idx) := by
  unfold ValidIdx; infer_instance

/-- Row-major flattening of a multi-index with respect to shape `s`
(the C-order ravel used by numpy reshapes). -/
def encodeIdx : List ℕ → List ℕ → ℕ
  | [], _ => 0
  | _ :: _, [] => 0
  | _ :: s, i :: idx => i * s.prod + encodeIdx s idx

/-- Row-major unflattening of a linear index into a multi-index for shape `s`. -/
def decodeIdx : List ℕ → ℕ → List ℕ
  | [], _ => []
  | _ :: s, v => v / s.prod :: decodeIdx s (v % s.prod)

theorem validIdx_nil {idx : List ℕ} : ValidIdx [] idx ↔ idx = [] := by
  constructor
  · rintro ⟨h, _⟩; exact List.length_eq_zero.mp h
  · rintro rfl; exact ⟨rfl, fun i hi => absurd hi (Nat.not_lt_zero i)⟩

theorem validIdx_cons {n : ℕ} {s i idx} :
    ValidIdx (n :: s) (i :: idx) ↔ i < n ∧ ValidIdx s idx := by
  constructor
  · rintro ⟨hl, hc⟩
    refine ⟨by simpa using hc 0 (Nat.succ_pos _), by simpa using hl, fun j hj => ?_⟩
    simpa using hc (j + 1) (Nat.succ_lt_succ hj)
  · rintro ⟨hi, hl, hc⟩
    refine ⟨by simp [hl], fun j hj => ?_⟩
    cases j with
    | zero => simpa using hi
    | succ j => simpa using hc j (Nat.lt_of_succ_lt_succ hj)

theorem encodeIdx_lt : ∀ {s idx : List ℕ}, ValidIdx s idx → encodeIdx s idx < s.prod := by
  intro s
  induction s with
  | nil => intro idx _; simp [encodeIdx]
  | cons n s ih =>
    intro idx h
    match idx with
    | [] => exact absurd h.1 (by simp)
    | i :: idx =>
      rw [validIdx_cons] at h
      obtain ⟨hi, hv⟩ := h
      have he := ih hv
      have h1 : encodeIdx (n :: s) (i :: idx) = i * s.prod + encodeIdx s idx := rfl
      have h2 : (i + 1) * s.prod ≤ n * s.prod := Nat.mul_le_mul_right _ hi
      rw [h1, List.prod_cons]
      calc i * s.prod + encodeIdx s idx < i * s.prod + s.prod := by omega
        _ = (i + 1) * s.prod := by ring
        _ ≤ n * s.prod := h2

theorem decodeIdx_encodeIdx : ∀ {s idx : List ℕ},
    ValidIdx s idx → decodeIdx s (encodeIdx s idx) = idx := by
  intro s
  induction s with
  | nil => intro idx h; rw [validIdx_nil.mp h]; rfl
  | cons n s ih =>
    intro idx h
    match idx with
    | [] => exact absurd h.1 (by simp)
    | i :: idx =>
      rw [validIdx_cons] at h
      obtain ⟨hi, hv⟩ := h
      have he : encodeIdx s idx < s.prod := encodeIdx_lt hv
      have hp : 0 < s.prod := Nat.pos_of_ne_zero (by intro h0; rw [h0] at he; omega)
      have hcomm : i * s.prod + encodeIdx s idx = s.prod * i + encodeIdx s idx := by ring
      have hdiv : (i * s.prod + encodeIdx s idx) / s.prod = i := by
        rw [hcomm, Nat.mul_add_div hp, Nat.div_eq_of_lt he, Nat.add_zero]
      have hmod : (i * s.prod + encodeIdx s idx) % s.prod = encodeIdx s idx := by
        rw [hcomm, Nat.mul_add_mod, Nat.mod_eq_of_lt he]
      show (i * s.prod + encodeIdx s idx) / s.prod ::
          decodeIdx s ((i * s.prod + encodeIdx s idx) % s.prod) = i :: idx
      rw [hdiv, hmod, ih hv]

theorem encodeIdx_decodeIdx : ∀ {s : List ℕ} {v : ℕ},
    v < s.prod → encodeIdx s (decodeIdx s v) = v := by
  intro s
  induction s with
  | nil =>
    intro v hv
    have hv0 : v = 0 := by simp at hv; omega
    subst hv0; rfl
  | cons n s ih =>
    intro v hv
    rw [List.prod_cons] at hv
    have hp : 0 < s.prod := by
      rcases Nat.eq_zero_or_pos s.prod with h0 | h0
      · rw [h0, Nat.mul_zero] at hv; omega
      · exact h0
    show (v / s.prod) * s.prod + encodeIdx s (decodeIdx s (v % s.prod)) = v
    rw [ih (Nat.mod_lt _ hp), Nat.mul_comm, Nat.div_add_mod]

theorem validIdx_decodeIdx : ∀ {s : List ℕ} {v : ℕ},
    v < s.prod → ValidIdx s (decodeIdx s v) := by
  intro s
  induction s with
  | nil => intro v _; exact validIdx_nil.mpr rfl
  | cons n s ih =>
    intro v hv
    rw [List.prod_cons] at hv
    have hp : 0 < s.prod := by
      rcases Nat.eq_zero_or_pos s.prod with h0 | h0
      · rw [h0, Nat.mul_zero] at hv; omega
      · exact h0
    refine validIdx_cons.mpr ⟨?_, ih (Nat.mod_lt _ hp)⟩
    exact (Nat.div_lt_iff_lt_mul hp).mpr (by rw [Nat.mul_comm] at hv ⊢; exact hv)

/-- The components of `idx` at the positions listed in `axes`. -/
def pickIdx (idx : List ℕ) (axes : List ℕ) : List ℕ :=
  axes.map (fun a => idx.getD a 0)

/-- The axes of a rank-`r` tensor that are not in `ta`: the axes merged into the
vector axis, in their original relative order. -/
def vecAxes (ta : List ℕ) (r : ℕ) : List ℕ :=
  (List.range r).filter (fun i => decide (i ∉ ta))

theorem getD_map_indexOf {l : List ℕ} {a : ℕ} (f : ℕ → ℕ) (h : a ∈ l) :
    (l.map f).getD (l.indexOf a) 0 = f a := by
  have hlt : l.indexOf a < l.length := List.indexOf_lt_length.mpr h
  rw [List.getD_eq_getElem _ 0 (by simpa using hlt), List.getElem_map, List.getElem_indexOf]

theorem length_pickIdx (idx axes : List ℕ) : (pickIdx idx axes).length = axes.length := by
  simp [pickIdx]

theorem mem_vecAxes {ta : List ℕ} {r i : ℕ} : i ∈ vecAxes ta r ↔ i < r ∧ i ∉ ta := by
  simp [vecAxes]

/-- Rebuild a full rank-`r` index from components `pv` at positions `p` and
components `qv` at the remaining positions `q`. -/
def assemble2 (r : ℕ) (p q pv qv : List ℕ) : List ℕ :=
  (List.range r).map (fun i =>
    if i ∈ p then pv.getD (p.indexOf i) 0 else qv.getD (q.indexOf i) 0)

theorem length_assemble2 (r : ℕ) (p q pv qv : List ℕ) :
    (assemble2 r p q pv qv).length = r := by
  simp [assemble2]

theorem assemble2_pick {r : ℕ} {ta idx : List ℕ} (hl : idx.length = r) :
    assemble2 r ta (vecAxes ta r) (pickIdx idx ta) (pickIdx idx (vecAxes ta r)) = idx := by
  apply List.ext_getElem
  · simp [assemble2, hl]
  · intro i h1 h2
    have hir : i < r := by simpa [assemble2] using h1
    rw [show (assemble2 r ta (vecAxes ta r) (pickIdx idx ta)
        (pickIdx idx (vecAxes ta r)))[i] =
        (if i ∈ ta then (pickIdx idx ta).getD (ta.indexOf i) 0
         else (pickIdx idx (vecAxes ta r)).getD ((vecAxes ta r).indexOf i) 0) by
      simp [assemble2]]
    by_cases hmem : i ∈ ta
    · rw [if_pos hmem]
      unfold pickIdx
      rw [getD_map_indexOf _ hmem, List.getD_eq_getElem _ 0 (by omega)]
    · rw [if_neg hmem]
      have hmem' : i ∈ vecAxes ta r := mem_vecAxes.mpr ⟨hir, hmem⟩
      unfold pickIdx
      rw [getD_map_indexOf _ hmem', List.getD_eq_getElem _ 0 (by omega)]

theorem length_vecAxes_add {ta : List ℕ} {r : ℕ} (hn : ta.Nodup)
    (hb : ∀ a ∈ ta, a < r) : ta.length + (vecAxes ta r).length = r := by
  have hperm : List.Perm ((List.range r).filter (fun i => decide (i ∈ ta))) ta := by
    rw [List.perm_ext_iff_of_nodup ((List.nodup_range r).filter _) hn]
    intro a
    simp only [List.mem_filter, List.mem_range, decide_eq_true_eq]
    exact ⟨fun h => h.2, fun h => ⟨hb a h, h⟩⟩
  have h1 : ((List.range r).filter (fun i => decide (i ∈ ta))).length = ta.length :=
    hperm.length_eq
  have h2 := List.length_eq_length_filter_add (l := List.range r)
    (fun i => decide (i ∈ ta))
  have h3 : (vecAxes ta r).length =
      ((List.range r).filter (fun i => !decide (i ∈ ta))).length := by
    unfold vecAxes
    have hfun : (fun i => decide (i ∉ ta)) = (fun i => !decide (i ∈ ta)) := by
      funext i; simp [decide_not]
    rw [hfun]
  rw [h3]
  have h4 : (List.range r).length = r := List.length_range r
  omega

theorem validIdx_pick {s idx axes : List ℕ} (h : ValidIdx s idx)
    (hb : ∀ a ∈ axes, a < s.length) :
    ValidIdx (pickIdx s axes) (pickIdx idx axes) := by
  refine ⟨by simp [pickIdx], fun i hi => ?_⟩
  rw [length_pickIdx] at hi
  unfold pickIdx
  rw [List.getD_eq_getElem _ 0 (by simpa using hi),
    List.getD_eq_getElem _ 0 (by simpa using hi), List.getElem_map, List.getElem_map]
  exact h.2 _ (hb _ (List.getElem_mem _))

theorem getD_insertIdx_self {l : List ℕ} {x vax : ℕ} (h : vax ≤ l.length) :
    (List.insertIdx vax x l).getD vax 0 = x := by
  rw [List.getD_eq_getElem _ 0 (by rw [List.length_insertIdx _ _ h]; omega)]
  exact List.getElem_insertIdx_self l x vax h

/-- An N-dimensional array: a shape together with the array contents, read
through multi-indices (values at invalid indices are irrelevant). -/
structure Tensor (α : Type*) where
  shape : List ℕ
  data : List ℕ → α

/-- Element-for-element equality of tensors: equal shapes and equal entries at
every valid multi-index. -/
def TensorEq {α : Type*} (t u : Tensor α) : Prop :=
  t.shape = u.shape ∧ ∀ idx, ValidIdx u.shape idx → t.data idx = u.data idx

/-- Modelled from the spec: `vectorize_numpy_array(tensor, tensor_axes, vec_axis,
ret_shape=True)` of the missing module `libics.func.tensor`.  All axes not in
`tensor_axes` are merged, row-major, into a single axis inserted at position
`vec_axis` among the kept tensor axes (which retain their relative order); the
original sizes of the merged axes are returned alongside so the operation is
invertible. -/
def vectorize_numpy_array {α : Type*} (t : Tensor α) (tensor_axes : List ℕ)
    (vec_axis : ℕ) : Tensor α × List ℕ :=
  (⟨List.insertIdx vec_axis
      (pickIdx t.shape (vecAxes tensor_axes t.shape.length)).prod
      (pickIdx t.shape tensor_axes),
    fun jdx => t.data (assemble2 t.shape.length tensor_axes
      (vecAxes tensor_axes t.shape.length)
      (jdx.eraseIdx vec_axis)
      (decodeIdx (pickIdx t.shape (vecAxes tensor_axes t.shape.length))
        (jdx.getD vec_axis 0)))⟩,
   pickIdx t.shape (vecAxes tensor_axes t.shape.length))

/-- Modelled from the spec: `tensorize_numpy_array(matrix, vec_shape,
tensor_axes, vec_axis)` of the missing module `libics.func.tensor`: the exact
inverse of `vectorize_numpy_array` — the merged axis at position `vec_axis` is
split back into the axes recorded in `vec_shape`, which are re-interleaved with
the kept tensor axes. -/
def tensorize_numpy_array {α : Type*} (m : Tensor α) (vec_shape : List ℕ)
    (tensor_axes : List ℕ) (vec_axis : ℕ) : Tensor α :=
  ⟨assemble2 (tensor_axes.length + vec_shape.length) tensor_axes
     (vecAxes tensor_axes (tensor_axes.length + vec_shape.length))
     (m.shape.eraseIdx vec_axis) vec_shape,
   fun idx => m.data (List.insertIdx vec_axis
     (encodeIdx vec_shape
       (pickIdx idx (vecAxes tensor_axes (tensor_axes.length + vec_shape.length))))
     (pickIdx idx tensor_axes))⟩

/-- **C1.** For every tensor `T`, every valid partition of its axes into
`tensor_axes` (no duplicates, all in range) and every valid insertion position
`vec_axis`, `tensorize` applied to the pair returned by `vectorize` (with the
same `tensor_axes` and `vec_axis`) returns a tensor equal element-for-element
to `T`; the round trip is exact. -/
theorem vectorize_tensorize_roundtrip {α : Type*} (t : Tensor α) (ta : List ℕ)
    (vax : ℕ) (hn : ta.Nodup) (hb : ∀ a ∈ ta, a < t.shape.length)
    (hv : vax ≤ ta.length) :
    TensorEq (tensorize_numpy_array (vectorize_numpy_array t ta vax).1
      (vectorize_numpy_array t ta vax).2 ta vax) t := by
  have hlen : ta.length + (vecAxes ta t.shape.length).length = t.shape.length :=
    length_vecAxes_add hn hb
  have hvslen : (pickIdx t.shape (vecAxes ta t.shape.length)).length =
      (vecAxes ta t.shape.length).length := length_pickIdx _ _
  have hr' : ta.length + (pickIdx t.shape (vecAxes ta t.shape.length)).length =
      t.shape.length := by omega
  constructor
  · show assemble2 (ta.length + (pickIdx t.shape (vecAxes ta t.shape.length)).length)
      ta (vecAxes ta (ta.length + (pickIdx t.shape (vecAxes ta t.shape.length)).length))
      ((List.insertIdx vax (pickIdx t.shape (vecAxes ta t.shape.length)).prod
        (pickIdx t.shape ta)).eraseIdx vax)
      (pickIdx t.shape (vecAxes ta t.shape.length)) = t.shape
    rw [hr', List.eraseIdx_insertIdx]
    exact assemble2_pick rfl
  · intro idx hidx
    show t.data (assemble2 t.shape.length ta (vecAxes ta t.shape.length)
      ((List.insertIdx vax
        (encodeIdx (pickIdx t.shape (vecAxes ta t.shape.length))
          (pickIdx idx (vecAxes ta
            (ta.length + (pickIdx t.shape (vecAxes ta t.shape.length)).length))))
        (pickIdx idx ta)).eraseIdx vax)
      (decodeIdx (pickIdx t.shape (vecAxes ta t.shape.length))
        ((List.insertIdx vax
          (encodeIdx (pickIdx t.shape (vecAxes ta t.shape.length))
            (pickIdx idx (vecAxes ta
              (ta.length + (pickIdx t.shape (vecAxes ta t.shape.length)).length))))
          (pickIdx idx ta)).getD vax 0))) = t.data idx
    rw [hr', List.eraseIdx_insertIdx,
      getD_insertIdx_self (by rw [length_pickIdx]; exact hv)]
    have hbva : ∀ a ∈ vecAxes ta t.shape.length, a < t.shape.length := by
      intro a ha; exact (mem_vecAxes.mp ha).1
    rw [decodeIdx_encodeIdx (validIdx_pick hidx hbva)]
    rw [assemble2_pick hidx.1]

/-- The concrete 4-D scenario array of shape (2,3,4,5) holding 0..119
(numpy `arange(120).reshape((2,3,4,5))`). -/
def arangeTensor : Tensor ℚ :=
  ⟨[2, 3, 4, 5], fun idx => (encodeIdx [2, 3, 4, 5] idx : ℚ)⟩

theorem vectorize_tensorize_roundtrip_witness :
    TensorEq (tensorize_numpy_array (vectorize_numpy_array arangeTensor [0, 2] 2).1
      (vectorize_numpy_array arangeTensor [0, 2] 2).2 [0, 2] 2) arangeTensor :=
  vectorize_tensorize_roundtrip arangeTensor [0, 2] 2 (by decide) (by decide)
    (by decide)

theorem length_decodeIdx : ∀ (s : List ℕ) (v : ℕ), (decodeIdx s v).length = s.length
  | [], _ => rfl
  | _ :: s, v => by simp [decodeIdx, length_decodeIdx s]

theorem indexOf_getD_first {l : List ℕ} {i : ℕ} (hi : i < l.length)
    (hf : ∀ j, j < i → l.getD j 0 ≠ l.getD i 0) : l.indexOf (l.getD i 0) = i := by
  induction l generalizing i with
  | nil => simp at hi
  | cons x xs ih =>
    cases i with
    | zero => simpa using List.indexOf_cons_self x xs
    | succ i =>
      have hx : x ≠ (x :: xs).getD (i + 1) 0 := hf 0 (Nat.succ_pos i)
      have hg : (x :: xs).getD (i + 1) 0 = xs.getD i 0 := rfl
      rw [hg] at hx ⊢
      rw [List.indexOf_cons_ne _ hx]
      have hi' : i < xs.length := by simpa using hi
      have hf' : ∀ j, j < i → xs.getD j 0 ≠ xs.getD i 0 := fun j hj =>
        hf (j + 1) (Nat.succ_lt_succ hj)
      rw [ih hi' hf']

theorem nodup_indexOf_getD {l : List ℕ} {i : ℕ} (hn : l.Nodup) (hi : i < l.length) :
    l.indexOf (l.getD i 0) = i := by
  refine indexOf_getD_first hi (fun j hj heq => ?_)
  have hj' : j < l.length := by omega
  rw [List.getD_eq_getElem _ 0 hj', List.getD_eq_getElem _ 0 hi] at heq
  exact absurd ((List.Nodup.getElem_inj_iff hn).mp heq) (by omega)

theorem indexOf_range {p r : ℕ} (h : p < r) : (List.range r).indexOf p = p := by
  have hg : (List.range r).getD p 0 = p := by
    rw [List.getD_eq_getElem _ 0 (by simpa using h), List.getElem_range]
  have := nodup_indexOf_getD (List.nodup_range r) (i := p) (by simpa using h)
  rwa [hg] at this

theorem getD_map_range {h : ℕ → ℕ} {r j : ℕ} (hj : j < r) :
    ((List.range r).map h).getD j 0 = h j := by
  rw [List.getD_eq_getElem _ 0 (by simpa using hj), List.getElem_map, List.getElem_range]

theorem indexOf_map_range {h : ℕ → ℕ} {p r : ℕ} (hp : p < r)
    (hu : ∀ q, q < p → h q ≠ h p) : ((List.range r).map h).indexOf (h p) = p := by
  have hmain := indexOf_getD_first (l := (List.range r).map h) (i := p)
    (by simpa using hp) (fun j hj => by
      rw [getD_map_range (by omega), getD_map_range hp]
      exact hu j hj)
  rwa [getD_map_range hp] at hmain

/-- Iterated sum of `f` over all assignments of the labelled ranges `ls`: each
pair `(l, n)` binds label `l` to every value below `n` in turn. -/
def sumAssign {α : Type*} [AddCommMonoid α] : List (ℕ × ℕ) → ((ℕ → ℕ) → α) → α
  | [], f => f (fun _ => 0)
  | ln :: rest, f =>
    ∑ i ∈ Finset.range ln.2, sumAssign rest (fun env => f (Function.update env ln.1 i))

/-- The assignment sending label `labels[k]` to `vals[k]` and all other labels
to 0. -/
def envOf (labels vals : List ℕ) (l : ℕ) : ℕ :=
  if l ∈ labels then vals.getD (labels.indexOf l) 0 else 0

theorem sumAssign_perm {α : Type*} [AddCommMonoid α] {ls ls' : List (ℕ × ℕ)}
    (hp : List.Perm ls ls') :
    (ls.map Prod.fst).Nodup → ∀ f : (ℕ → ℕ) → α, sumAssign ls f = sumAssign ls' f := by
  induction hp with
  | nil => intro _ f; rfl
  | cons x htl ih =>
    intro hn f
    simp only [List.map_cons, List.nodup_cons] at hn
    show sumAssign (x :: _) f = sumAssign (x :: _) f
    simp only [sumAssign]
    exact Finset.sum_congr rfl (fun i _ => ih hn.2 _)
  | swap x y l =>
    intro hn f
    have hxy : y.1 ≠ x.1 := by
      simp only [List.map_cons, List.nodup_cons, List.mem_cons] at hn
      intro heq
      exact hn.1 (Or.inl heq)
    show sumAssign (y :: x :: l) f = sumAssign (x :: y :: l) f
    simp only [sumAssign]
    rw [Finset.sum_comm]
    refine Finset.sum_congr rfl (fun i _ => Finset.sum_congr rfl (fun j _ => ?_))
    congr 1
    funext env
    rw [Function.update_comm hxy]
  | trans h1 _ ih1 ih2 =>
    intro hn f
    rw [ih1 hn f, ih2 (((h1.map Prod.fst).nodup_iff).mp hn) f]

theorem sum_range_mul_eq {α : Type*} [AddCommMonoid α] (n P : ℕ) (F : ℕ → α) :
    ∑ v ∈ Finset.range (n * P), F v =
      ∑ i ∈ Finset.range n, ∑ j ∈ Finset.range P, F (i * P + j) := by
  induction n with
  | zero => simp
  | succ n ih =>
    have h1 : (n + 1) * P = n * P + P := by ring
    rw [h1, Finset.sum_range_add, ih, Finset.sum_range_succ]

theorem envOf_cons {l : ℕ} {ls : List ℕ} {i : ℕ} {vs : List ℕ} (hl : l ∉ ls) :
    ∀ l' ∈ l :: ls, envOf (l :: ls) (i :: vs) l' = Function.update (envOf ls vs) l i l' := by
  intro l' hl'
  rcases List.mem_cons.mp hl' with rfl | hmem
  · rw [Function.update_same]
    show (if l' ∈ l' :: ls then (i :: vs).getD ((l' :: ls).indexOf l') 0 else 0) = i
    rw [if_pos (List.mem_cons_self _ _), List.indexOf_cons_self]
    rfl
  · have hne : l' ≠ l := fun h => hl (h ▸ hmem)
    rw [Function.update_noteq hne]
    show (if l' ∈ l :: ls then (i :: vs).getD ((l :: ls).indexOf l') 0 else 0) =
      (if l' ∈ ls then vs.getD (ls.indexOf l') 0 else 0)
    rw [if_pos hl', if_pos hmem, List.indexOf_cons_ne _ (Ne.symm hne)]
    rfl

theorem sumAssign_flat {α : Type*} [AddCommMonoid α] :
    ∀ (labels : List ℕ) (sz : ℕ → ℕ) (g : (ℕ → ℕ) → α), labels.Nodup →
      (∀ env env', (∀ l ∈ labels, env l = env' l) → g env = g env') →
      sumAssign (labels.map (fun l => (l, sz l))) g =
        ∑ v ∈ Finset.range (labels.map sz).prod,
          g (envOf labels (decodeIdx (labels.map sz) v)) := by
  intro labels
  induction labels with
  | nil =>
    intro sz g _ hg
    show g (fun _ => 0) = ∑ v ∈ Finset.range ([] : List ℕ).prod,
      g (envOf [] (decodeIdx [] v))
    rw [List.prod_nil, Finset.sum_range_one]
    exact hg _ _ (by simp [envOf])
  | cons l ls ih =>
    intro sz g hnd hg
    rw [List.nodup_cons] at hnd
    show (∑ i ∈ Finset.range (sz l),
        sumAssign (ls.map (fun x => (x, sz x))) (fun env => g (Function.update env l i))) =
      ∑ v ∈ Finset.range ((sz l :: ls.map sz).prod),
        g (envOf (l :: ls) (decodeIdx (sz l :: ls.map sz) v))
    rw [List.prod_cons, sum_range_mul_eq]
    refine Finset.sum_congr rfl (fun i _ => ?_)
    have hgi : ∀ env env', (∀ l' ∈ ls, env l' = env' l') →
        g (Function.update env l i) = g (Function.update env' l i) := by
      intro env env' hagree
      refine hg _ _ (fun l' hl' => ?_)
      rcases List.mem_cons.mp hl' with rfl | hmem
      · rw [Function.update_same, Function.update_same]
      · have hne : l' ≠ l := fun h => hnd.1 (h ▸ hmem)
        rw [Function.update_noteq hne, Function.update_noteq hne]
        exact hagree l' hmem
    rw [ih sz (fun env => g (Function.update env l i)) hnd.2 hgi]
    refine Finset.sum_congr rfl (fun j hj => ?_)
    have hjP : j < (ls.map sz).prod := Finset.mem_range.mp hj
    have hP : 0 < (ls.map sz).prod := by omega
    have hdm : decodeIdx (sz l :: ls.map sz) (i * (ls.map sz).prod + j) =
        i :: decodeIdx (ls.map sz) j := by
      show (i * (ls.map sz).prod + j) / (ls.map sz).prod ::
          decodeIdx (ls.map sz) ((i * (ls.map sz).prod + j) % (ls.map sz).prod) =
        i :: decodeIdx (ls.map sz) j
      have hcomm : i * (ls.map sz).prod + j = (ls.map sz).prod * i + j := by ring
      rw [hcomm, Nat.mul_add_div hP, Nat.mul_add_mod, Nat.div_eq_of_lt hjP,
        Nat.mod_eq_of_lt hjP, Nat.add_zero]
    rw [hdm]
    exact hg _ _ (fun l' hl' => (envOf_cons hnd.1 l' hl').symm)

/-- The broadcast (batch) axes of an operator: those in neither `a_axes` nor
`b_axes`, in their original order. -/
def batchAxes (a_axes b_axes : List ℕ) (r : ℕ) : List ℕ :=
  (List.range r).filter (fun i => decide (i ∉ a_axes ∧ i ∉ b_axes))

theorem mem_batchAxes {a b : List ℕ} {r i : ℕ} :
    i ∈ batchAxes a b r ↔ i < r ∧ i ∉ a ∧ i ∉ b := by
  simp [batchAxes]

theorem nodup_batchAxes {a b : List ℕ} {r : ℕ} : (batchAxes a b r).Nodup :=
  List.Nodup.filter _ (List.nodup_range r)

/-- Rebuild a full rank-`r` index from the `a_axes` components `pv`, the
`b_axes` components `qv` and the batch components `bv`. -/
def assemble3 (r : ℕ) (a b pv qv bv : List ℕ) : List ℕ :=
  (List.range r).map (fun i =>
    if i ∈ a then pv.getD (a.indexOf i) 0
    else if i ∈ b then qv.getD (b.indexOf i) 0
    else bv.getD ((batchAxes a b r).indexOf i) 0)

theorem length_assemble3 {r : ℕ} {a b pv qv bv : List ℕ} :
    (assemble3 r a b pv qv bv).length = r := by
  simp [assemble3]

theorem getD_assemble3 {r p : ℕ} {a b pv qv bv : List ℕ} (hp : p < r) :
    (assemble3 r a b pv qv bv).getD p 0 =
      (if p ∈ a then pv.getD (a.indexOf p) 0
       else if p ∈ b then qv.getD (b.indexOf p) 0
       else bv.getD ((batchAxes a b r).indexOf p) 0) :=
  getD_map_range hp

theorem pick_assemble3_a {r : ℕ} {a b pv qv bv : List ℕ} (ha : a.Nodup)
    (hb : ∀ x ∈ a, x < r) (hl : pv.length = a.length) :
    pickIdx (assemble3 r a b pv qv bv) a = pv := by
  apply List.ext_getElem
  · simp [pickIdx, hl]
  · intro k h1 h2
    have hk : k < a.length := by simpa [pickIdx] using h1
    simp only [pickIdx, List.getElem_map]
    have hmem : a[k] ∈ a := List.getElem_mem _
    rw [getD_assemble3 (hb _ hmem), if_pos hmem, ← List.getD_eq_getElem a 0 hk,
      nodup_indexOf_getD ha hk, List.getD_eq_getElem _ 0 (by omega)]

theorem pick_assemble3_b {r : ℕ} {a b pv qv bv : List ℕ} (hb : b.Nodup)
    (hdisj : ∀ x ∈ b, x ∉ a) (hbr : ∀ x ∈ b, x < r) (hl : qv.length = b.length) :
    pickIdx (assemble3 r a b pv qv bv) b = qv := by
  apply List.ext_getElem
  · simp [pickIdx, hl]
  · intro k h1 h2
    have hk : k < b.length := by simpa [pickIdx] using h1
    simp only [pickIdx, List.getElem_map]
    have hmem : b[k] ∈ b := List.getElem_mem _
    rw [getD_assemble3 (hbr _ hmem), if_neg (hdisj _ hmem), if_pos hmem,
      ← List.getD_eq_getElem b 0 hk, nodup_indexOf_getD hb hk,
      List.getD_eq_getElem _ 0 (by omega)]

theorem pick_assemble3_bat {r : ℕ} {a b pv qv bv : List ℕ}
    (hl : bv.length = (batchAxes a b r).length) :
    pickIdx (assemble3 r a b pv qv bv) (batchAxes a b r) = bv := by
  apply List.ext_getElem
  · simp [pickIdx, hl]
  · intro k h1 h2
    have hk : k < (batchAxes a b r).length := by simpa [pickIdx] using h1
    simp only [pickIdx, List.getElem_map]
    have hmem : (batchAxes a b r)[k] ∈ batchAxes a b r := List.getElem_mem _
    obtain ⟨hlt, hna, hnb⟩ := mem_batchAxes.mp hmem
    rw [getD_assemble3 hlt, if_neg hna, if_neg hnb,
      ← List.getD_eq_getElem (batchAxes a b r) 0 hk,
      nodup_indexOf_getD nodup_batchAxes hk, List.getD_eq_getElem _ 0 (by omega)]

theorem assemble3_pick {r : ℕ} {a b idx : List ℕ} (hl : idx.length = r) :
    assemble3 r a b (pickIdx idx a) (pickIdx idx b)
      (pickIdx idx (batchAxes a b r)) = idx := by
  apply List.ext_getElem
  · simp [assemble3, hl]
  · intro i h1 h2
    have hir : i < r := by simpa [assemble3] using h1
    have hget : (assemble3 r a b (pickIdx idx a) (pickIdx idx b)
        (pickIdx idx (batchAxes a b r)))[i] =
        (assemble3 r a b (pickIdx idx a) (pickIdx idx b)
          (pickIdx idx (batchAxes a b r))).getD i 0 := by
      rw [List.getD_eq_getElem _ 0 (by simpa [assemble3] using hir)]
    rw [hget, getD_assemble3 hir]
    by_cases hia : i ∈ a
    · rw [if_pos hia]
      unfold pickIdx
      rw [getD_map_indexOf _ hia, List.getD_eq_getElem _ 0 (by omega)]
    · rw [if_neg hia]
      by_cases hib : i ∈ b
      · rw [if_pos hib]
        unfold pickIdx
        rw [getD_map_indexOf _ hib, List.getD_eq_getElem _ 0 (by omega)]
      · rw [if_neg hib]
        have hmem : i ∈ batchAxes a b r := mem_batchAxes.mpr ⟨hir, hia, hib⟩
        unfold pickIdx
        rw [getD_map_indexOf _ hmem, List.getD_eq_getElem _ 0 (by omega)]

/-- The square matrix view of tensor `t` over row group `a_axes` and column
group `b_axes` at batch index `bIdx` (row-major flattening within each group):
the 2D matrix the spec says `inverse` and `solve` delegate to. -/
def matViewSq {α : Type*} (t : Tensor α) (a_axes b_axes bIdx : List ℕ) :
    Matrix (Fin (pickIdx t.shape a_axes).prod) (Fin (pickIdx t.shape a_axes).prod) α :=
  Matrix.of (fun i j => t.data (assemble3 t.shape.length a_axes b_axes
    (decodeIdx (pickIdx t.shape a_axes) i.val)
    (decodeIdx (pickIdx t.shape b_axes) j.val) bIdx))

/-- Modelled from the spec: the ordinary matrix inverse supplied by the
external dense linear-algebra backend, realized exactly as
`det⁻¹ • adjugate`. -/
def matInverse {n : ℕ} {K : Type*} [Field K] (M : Matrix (Fin n) (Fin n) K) :
    Matrix (Fin n) (Fin n) K :=
  M.det⁻¹ • M.adjugate

theorem matInverse_mul_self {n : ℕ} {K : Type*} [Field K]
    {M : Matrix (Fin n) (Fin n) K} (h : M.det ≠ 0) : M * matInverse M = 1 := by
  unfold matInverse
  rw [Matrix.mul_smul, Matrix.mul_adjugate, smul_smul, inv_mul_cancel₀ h, one_smul]

theorem matInverse_self_mul {n : ℕ} {K : Type*} [Field K]
    {M : Matrix (Fin n) (Fin n) K} (h : M.det ≠ 0) : matInverse M * M = 1 := by
  unfold matInverse
  rw [Matrix.smul_mul, Matrix.adjugate_mul, smul_smul, inv_mul_cancel₀ h, one_smul]

/-- Axis size of label `l` in a contraction: taken from operand `a` where `l`
labels an axis of `a`, else from operand `b`. -/
def mulLabelSize {α : Type*} (a b : Tensor α) (a_axes b_axes : List ℕ) (l : ℕ) : ℕ :=
  if l ∈ a_axes then a.shape.getD (a_axes.indexOf l) 0
  else b.shape.getD (b_axes.indexOf l) 0

/-- Value of label `l` during contraction: read from the output index `jdx` for
surviving labels, from the summation assignment `env` for contracted ones. -/
def mulEnv (res_axes jdx : List ℕ) (env : ℕ → ℕ) (l : ℕ) : ℕ :=
  if l ∈ res_axes then jdx.getD (res_axes.indexOf l) 0 else env l

/-- Modelled from the spec: `tensormul_numpy_array(a, b, a_axes, b_axes,
res_axes)` of the missing module `libics.func.tensor`: generalized contraction
(Einstein summation with explicit integer axis labels).  `a_axes` and `b_axes`
assign a label to each axis of `a` resp. `b`; labels listed in `res_axes`
survive into the result at the listed position (labels present in only one
operand are broadcast/batch labels), and all remaining labels are summed
over. -/
def tensormul_numpy_array {α : Type*} [CommRing α] (a b : Tensor α)
    (a_axes b_axes res_axes : List ℕ) : Tensor α :=
  ⟨res_axes.map (mulLabelSize a b a_axes b_axes),
   fun jdx => sumAssign
     (((a_axes ++ b_axes).filter (fun l => decide (l ∉ res_axes))).dedup.map
       (fun l => (l, mulLabelSize a b a_axes b_axes l)))
     (fun env => a.data (a_axes.map (mulEnv res_axes jdx env)) *
       b.data (b_axes.map (mulEnv res_axes jdx env)))⟩

/-- Modelled from the spec: `tensorinv_numpy_array(tensor, a_axes, b_axes)` of
the missing module `libics.func.tensor`: vectorizes the tensor into a square
matrix using `a_axes` as row and `b_axes` as column groups (remaining axes are
broadcast/batch axes inverted slice by slice), computes the ordinary matrix
inverse, and tensorizes back into the same axis layout. -/
def tensorinv_numpy_array {α : Type*} [Field α] (t : Tensor α)
    (a_axes b_axes : List ℕ) : Tensor α :=
  ⟨t.shape,
   fun idx =>
     if hi : encodeIdx (pickIdx t.shape a_axes) (pickIdx idx a_axes) <
         (pickIdx t.shape a_axes).prod then
       if hj : encodeIdx (pickIdx t.shape b_axes) (pickIdx idx b_axes) <
           (pickIdx t.shape a_axes).prod then
         matInverse (matViewSq t a_axes b_axes
             (pickIdx idx (batchAxes a_axes b_axes t.shape.length)))
           ⟨encodeIdx (pickIdx t.shape a_axes) (pickIdx idx a_axes), hi⟩
           ⟨encodeIdx (pickIdx t.shape b_axes) (pickIdx idx b_axes), hj⟩
       else 0
     else 0⟩

/-- The identity operator over axis groups `a_axes`/`b_axes` on shape `s`:
Kronecker delta between the two merged group indices at every batch index. -/
def deltaTensor {α : Type*} [Zero α] [One α] (s a_axes b_axes : List ℕ) :
    Tensor α :=
  ⟨s, fun idx => if pickIdx idx a_axes = pickIdx idx b_axes then 1 else 0⟩

/-- Axis labels carried by `tensorinv(t)` when contracted against `t` (as in
the regression test): its row-group slots carry the labels of `t`'s column
axes (these get summed), its column-group slots carry fresh labels, and batch
axes carry their own position. -/
def invLabels (a_axes b_axes : List ℕ) (r : ℕ) : List ℕ :=
  (List.range r).map (fun p =>
    if p ∈ a_axes then b_axes.getD (a_axes.indexOf p) 0
    else if p ∈ b_axes then r + b_axes.indexOf p
    else p)

/-- Result labels of the multiply/inverse contraction: fresh labels where the
inverse's column-group axes survive, original labels elsewhere. -/
def mulResLabels (b_axes : List ℕ) (r : ℕ) : List ℕ :=
  (List.range r).map (fun p => if p ∈ b_axes then r + b_axes.indexOf p else p)

theorem mem_mulResLabels_self {b : List ℕ} {r p : ℕ} (hp : p < r) (hpb : p ∉ b) :
    p ∈ mulResLabels b r := by
  simp only [mulResLabels, List.mem_map, List.mem_range]
  exact ⟨p, hp, by rw [if_neg hpb]⟩

theorem indexOf_mulResLabels_self {b : List ℕ} {r p : ℕ} (hp : p < r) (hpb : p ∉ b) :
    (mulResLabels b r).indexOf p = p := by
  unfold mulResLabels
  have hgen : (if p ∈ b then r + b.indexOf p else p) = p := if_neg hpb
  have hmain := indexOf_map_range (p := p)
    (h := fun q => if q ∈ b then r + b.indexOf q else q) hp (by
      intro q hq
      dsimp only
      by_cases hqb : q ∈ b
      · rw [if_pos hqb, hgen]
        omega
      · rw [if_neg hqb, hgen]
        omega)
  dsimp only at hmain
  rwa [hgen] at hmain

theorem mem_mulResLabels_fresh {b : List ℕ} {r p : ℕ} (hp : p < r) (hpb : p ∈ b) :
    r + b.indexOf p ∈ mulResLabels b r := by
  simp only [mulResLabels, List.mem_map, List.mem_range]
  exact ⟨p, hp, by rw [if_pos hpb]⟩

theorem indexOf_mulResLabels_fresh {b : List ℕ} {r p : ℕ} (hp : p < r) (hpb : p ∈ b) :
    (mulResLabels b r).indexOf (r + b.indexOf p) = p := by
  unfold mulResLabels
  have hgen : (if p ∈ b then r + b.indexOf p else p) = r + b.indexOf p := if_pos hpb
  have hmain := indexOf_map_range (p := p)
    (h := fun q => if q ∈ b then r + b.indexOf q else q) hp (by
      intro q hq
      dsimp only
      by_cases hqb : q ∈ b
      · rw [if_pos hqb, hgen]
        intro heq
        have h1 : b.indexOf q = b.indexOf p := by omega
        have h2 : q = p := (List.indexOf_inj hqb hpb).mp h1
        omega
      · rw [if_neg hqb, hgen]
        omega)
  dsimp only at hmain
  rwa [hgen] at hmain

theorem not_mem_mulResLabels {b : List ℕ} {r p : ℕ} (hbb : ∀ x ∈ b, x < r)
    (hpb : p ∈ b) : p ∉ mulResLabels b r := by
  simp only [mulResLabels, List.mem_map, List.mem_range]
  rintro ⟨q, hq, heq⟩
  by_cases hqb : q ∈ b
  · rw [if_pos hqb] at heq
    have := hbb p hpb
    omega
  · rw [if_neg hqb] at heq
    exact hqb (heq ▸ hpb)

theorem getD_invLabels {a b : List ℕ} {r p : ℕ} (hp : p < r) :
    (invLabels a b r).getD p 0 =
      (if p ∈ a then b.getD (a.indexOf p) 0
       else if p ∈ b then r + b.indexOf p else p) :=
  getD_map_range hp

theorem getD_mem_of_length_le {a b : List ℕ} (hlab : a.length = b.length)
    {p : ℕ} (hpa : p ∈ a) : b.getD (a.indexOf p) 0 ∈ b := by
  have h1 : a.indexOf p < b.length := by
    rw [← hlab]; exact List.indexOf_lt_length.mpr hpa
  rw [List.getD_eq_getElem _ 0 h1]
  exact List.getElem_mem _

theorem indexOf_invLabels_fresh {a b : List ℕ} {r p : ℕ}
    (hlab : a.length = b.length) (hd : ∀ x ∈ a, x ∉ b) (hbb : ∀ x ∈ b, x < r)
    (hp : p < r) (hpb : p ∈ b) :
    (invLabels a b r).indexOf (r + b.indexOf p) = p := by
  unfold invLabels
  have hpa : p ∉ a := fun h => hd p h hpb
  have hgen : (if p ∈ a then b.getD (a.indexOf p) 0
      else if p ∈ b then r + b.indexOf p else p) = r + b.indexOf p := by
    rw [if_neg hpa, if_pos hpb]
  have hmain := indexOf_map_range (p := p)
    (h := fun q => if q ∈ a then b.getD (a.indexOf q) 0
      else if q ∈ b then r + b.indexOf q else q) hp (by
      intro q hq
      dsimp only
      rw [hgen]
      by_cases hqa : q ∈ a
      · rw [if_pos hqa]
        have hmem := getD_mem_of_length_le hlab hqa
        have := hbb _ hmem
        omega
      · rw [if_neg hqa]
        by_cases hqb : q ∈ b
        · rw [if_pos hqb]
          intro heq
          have h1 : b.indexOf q = b.indexOf p := by omega
          have h2 : q = p := (List.indexOf_inj hqb hpb).mp h1
          omega
        · rw [if_neg hqb]
          omega)
  dsimp only at hmain
  rwa [hgen] at hmain

theorem contracted_perm_b {a b : List ℕ} {r : ℕ} (hnb : b.Nodup)
    (hlab : a.length = b.length) (hbb : ∀ x ∈ b, x < r) :
    List.Perm (((List.range r ++ invLabels a b r).filter
      (fun l => decide (l ∉ mulResLabels b r))).dedup) b := by
  rw [List.perm_ext_iff_of_nodup (List.nodup_dedup _) hnb]
  intro l
  rw [List.mem_dedup, List.mem_filter]
  simp only [List.mem_append, decide_eq_true_eq]
  constructor
  · rintro ⟨hl1, hl2⟩
    rcases hl1 with hrange | hinv
    · by_contra hlb
      exact hl2 (mem_mulResLabels_self (List.mem_range.mp hrange) hlb)
    · simp only [invLabels, List.mem_map, List.mem_range] at hinv
      obtain ⟨q, hq, hval⟩ := hinv
      by_cases hqa : q ∈ a
      · rw [if_pos hqa] at hval
        exact hval ▸ getD_mem_of_length_le hlab hqa
      · rw [if_neg hqa] at hval
        by_cases hqb : q ∈ b
        · rw [if_pos hqb] at hval
          exact absurd (hval ▸ mem_mulResLabels_fresh hq hqb) hl2
        · rw [if_neg hqb] at hval
          exact absurd (hval ▸ mem_mulResLabels_self hq hqb) hl2
  · intro hlb
    exact ⟨Or.inl (List.mem_range.mpr (hbb l hlb)), not_mem_mulResLabels hbb hlb⟩

theorem map_mulEnv_range {a b idx c : List ℕ} {r : ℕ}
    (hd : ∀ x ∈ a, x ∉ b) (hbb : ∀ x ∈ b, x < r) (hl : idx.length = r) :
    (List.range r).map (mulEnv (mulResLabels b r) idx (envOf b c)) =
      assemble3 r a b (pickIdx idx a) c (pickIdx idx (batchAxes a b r)) := by
  apply List.ext_getElem
  · simp [assemble3]
  · intro p h1 h2
    have hpr : p < r := by simpa using h1
    rw [List.getElem_map, List.getElem_range,
      ← List.getD_eq_getElem (assemble3 r a b (pickIdx idx a) c
        (pickIdx idx (batchAxes a b r))) 0 h2, getD_assemble3 hpr]
    unfold mulEnv envOf
    by_cases hpb : p ∈ b
    · rw [if_neg (not_mem_mulResLabels hbb hpb), if_pos hpb,
        if_neg (fun h => hd p h hpb), if_pos hpb]
    · rw [if_pos (mem_mulResLabels_self hpr hpb), indexOf_mulResLabels_self hpr hpb]
      by_cases hpa : p ∈ a
      · rw [if_pos hpa]
        unfold pickIdx
        rw [getD_map_indexOf _ hpa]
      · rw [if_neg hpa, if_neg hpb]
        have hpbat : p ∈ batchAxes a b r := mem_batchAxes.mpr ⟨hpr, hpa, hpb⟩
        unfold pickIdx
        rw [getD_map_indexOf _ hpbat]

theorem map_mulEnv_invLabels {a b idx c : List ℕ} {r : ℕ}
    (hnb : b.Nodup) (hd : ∀ x ∈ a, x ∉ b) (hlab : a.length = b.length)
    (hbb : ∀ x ∈ b, x < r) (hl : idx.length = r) :
    (invLabels a b r).map (mulEnv (mulResLabels b r) idx (envOf b c)) =
      assemble3 r a b c (pickIdx idx b) (pickIdx idx (batchAxes a b r)) := by
  apply List.ext_getElem
  · simp [assemble3, invLabels]
  · intro p h1 h2
    have hpr : p < r := by simpa [invLabels] using h1
    have hLHS : ((invLabels a b r).map
        (mulEnv (mulResLabels b r) idx (envOf b c)))[p] =
        mulEnv (mulResLabels b r) idx (envOf b c) ((invLabels a b r).getD p 0) := by
      rw [List.getElem_map, List.getD_eq_getElem _ 0 (by simpa [invLabels] using hpr)]
    rw [hLHS, getD_invLabels hpr,
      ← List.getD_eq_getElem (assemble3 r a b c (pickIdx idx b)
        (pickIdx idx (batchAxes a b r))) 0 h2, getD_assemble3 hpr]
    by_cases hpa : p ∈ a
    · rw [if_pos hpa, if_pos hpa]
      have hmem : b.getD (a.indexOf p) 0 ∈ b := getD_mem_of_length_le hlab hpa
      unfold mulEnv envOf
      rw [if_neg (not_mem_mulResLabels hbb hmem), if_pos hmem]
      have hidx : a.indexOf p < b.length := by
        rw [← hlab]; exact List.indexOf_lt_length.mpr hpa
      rw [nodup_indexOf_getD hnb hidx]
    · rw [if_neg hpa, if_neg hpa]
      by_cases hpb : p ∈ b
      · rw [if_pos hpb, if_pos hpb]
        unfold mulEnv
        rw [if_pos (mem_mulResLabels_fresh hpr hpb),
          indexOf_mulResLabels_fresh hpr hpb]
        unfold pickIdx
        rw [getD_map_indexOf _ hpb]
      · rw [if_neg hpb, if_neg hpb]
        unfold mulEnv
        rw [if_pos (mem_mulResLabels_self hpr hpb), indexOf_mulResLabels_self hpr hpb]
        have hpbat : p ∈ batchAxes a b r := mem_batchAxes.mpr ⟨hpr, hpa, hpb⟩
        unfold pickIdx
        rw [getD_map_indexOf _ hpbat]

theorem mem_b_of_range_not_res {b : List ℕ} {r l : ℕ} (hl : l < r)
    (hnr : l ∉ mulResLabels b r) : l ∈ b := by
  by_contra hlb
  exact hnr (mem_mulResLabels_self hl hlb)

theorem mem_b_of_invLabels_not_res {a b : List ℕ} {r l : ℕ}
    (hlab : a.length = b.length) (hinv : l ∈ invLabels a b r)
    (hnr : l ∉ mulResLabels b r) : l ∈ b := by
  simp only [invLabels, List.mem_map, List.mem_range] at hinv
  obtain ⟨q, hq, hval⟩ := hinv
  by_cases hqa : q ∈ a
  · rw [if_pos hqa] at hval
    exact hval ▸ getD_mem_of_length_le hlab hqa
  · rw [if_neg hqa] at hval
    by_cases hqb : q ∈ b
    · rw [if_pos hqb] at hval
      exact absurd (hval ▸ mem_mulResLabels_fresh hq hqb) hnr
    · rw [if_neg hqb] at hval
      exact absurd (hval ▸ mem_mulResLabels_self hq hqb) hnr

theorem tensormul_inv_shape {α : Type*} [Field α] (t : Tensor α) (a b : List ℕ)
    (hlab : a.length = b.length) (hd : ∀ x ∈ a, x ∉ b)
    (hbb : ∀ x ∈ b, x < t.shape.length) :
    (mulResLabels b t.shape.length).map
      (mulLabelSize t (tensorinv_numpy_array t a b) (List.range t.shape.length)
        (invLabels a b t.shape.length)) = t.shape := by
  apply List.ext_getElem
  · simp [mulResLabels]
  · intro k h1 h2
    have hkr : k < t.shape.length := by simpa [mulResLabels] using h1
    rw [List.getElem_map, ← List.getD_eq_getElem (mulResLabels b t.shape.length) 0
      (by simpa [mulResLabels] using hkr)]
    unfold mulResLabels
    rw [getD_map_range hkr]
    by_cases hkb : k ∈ b
    · rw [if_pos hkb]
      unfold mulLabelSize
      rw [if_neg (by simp)]
      show (tensorinv_numpy_array t a b).shape.getD
        ((invLabels a b t.shape.length).indexOf (t.shape.length + b.indexOf k)) 0 =
        t.shape[k]
      show t.shape.getD
        ((invLabels a b t.shape.length).indexOf (t.shape.length + b.indexOf k)) 0 =
        t.shape[k]
      rw [indexOf_invLabels_fresh hlab hd hbb hkr hkb]
      exact List.getD_eq_getElem _ 0 h2
    · rw [if_neg hkb]
      unfold mulLabelSize
      rw [if_pos (List.mem_range.mpr hkr), indexOf_range hkr]
      exact List.getD_eq_getElem _ 0 h2

/-- **C3.** For every square operator tensor `M` over disjoint axis groups
(`a_axes`, `b_axes`) with equal group shapes whose matrix view is invertible at
every batch index, contracting `M` with `inverse(M, a_axes, b_axes)` via
`multiply` (column group against the inverse's row group, batch axes aligned)
yields the identity operator — exactly, in the idealized arithmetic modelling
floating point. -/
theorem tensormul_tensorinv_identity {α : Type*} [Field α] (t : Tensor α)
    (a b : List ℕ) (hna : a.Nodup) (hnb : b.Nodup) (hd : ∀ x ∈ a, x ∉ b)
    (hba : ∀ x ∈ a, x < t.shape.length) (hbb : ∀ x ∈ b, x < t.shape.length)
    (hsq : pickIdx t.shape a = pickIdx t.shape b)
    (hdet : ∀ bIdx, ValidIdx (pickIdx t.shape (batchAxes a b t.shape.length)) bIdx →
      (matViewSq t a b bIdx).det ≠ 0) :
    TensorEq (tensormul_numpy_array t (tensorinv_numpy_array t a b)
        (List.range t.shape.length) (invLabels a b t.shape.length)
        (mulResLabels b t.shape.length))
      (deltaTensor t.shape a b) := by
  have hlab : a.length = b.length := by
    have hc := congrArg List.length hsq
    simpa [pickIdx] using hc
  have hprodeq : (pickIdx t.shape a).prod = (pickIdx t.shape b).prod := by rw [hsq]
  refine ⟨tensormul_inv_shape t a b hlab hd hbb, fun idx hidx => ?_⟩
  have hlidx : idx.length = t.shape.length := hidx.1
  have hva : ValidIdx (pickIdx t.shape a) (pickIdx idx a) := validIdx_pick hidx hba
  have hvb : ValidIdx (pickIdx t.shape b) (pickIdx idx b) := validIdx_pick hidx hbb
  have hiRow : encodeIdx (pickIdx t.shape a) (pickIdx idx a) <
      (pickIdx t.shape a).prod := encodeIdx_lt hva
  have hjCol : encodeIdx (pickIdx t.shape b) (pickIdx idx b) <
      (pickIdx t.shape a).prod := by
    rw [hprodeq]; exact encodeIdx_lt hvb
  have hbatval : ValidIdx (pickIdx t.shape (batchAxes a b t.shape.length))
      (pickIdx idx (batchAxes a b t.shape.length)) :=
    validIdx_pick hidx (fun x hx => (mem_batchAxes.mp hx).1)
  show sumAssign
      (((List.range t.shape.length ++ invLabels a b t.shape.length).filter
        (fun l => decide (l ∉ mulResLabels b t.shape.length))).dedup.map
        (fun l => (l, mulLabelSize t (tensorinv_numpy_array t a b)
          (List.range t.shape.length) (invLabels a b t.shape.length) l)))
      (fun env =>
        t.data ((List.range t.shape.length).map
          (mulEnv (mulResLabels b t.shape.length) idx env)) *
        (tensorinv_numpy_array t a b).data ((invLabels a b t.shape.length).map
          (mulEnv (mulResLabels b t.shape.length) idx env))) =
    (if pickIdx idx a = pickIdx idx b then 1 else 0)
  have hfst : ((((List.range t.shape.length ++ invLabels a b t.shape.length).filter
      (fun l => decide (l ∉ mulResLabels b t.shape.length))).dedup.map
      (fun l => (l, mulLabelSize t (tensorinv_numpy_array t a b)
        (List.range t.shape.length) (invLabels a b t.shape.length) l))).map
      Prod.fst).Nodup := by
    rw [List.map_map]
    have hcomp : (Prod.fst ∘ fun l : ℕ =>
        (l, mulLabelSize t (tensorinv_numpy_array t a b)
          (List.range t.shape.length) (invLabels a b t.shape.length) l)) = id := by
      funext l; rfl
    rw [hcomp, List.map_id]
    exact List.nodup_dedup _
  rw [sumAssign_perm (List.Perm.map _ (contracted_perm_b hnb hlab hbb)) hfst]
  have hFcong : ∀ env env' : ℕ → ℕ, (∀ l ∈ b, env l = env' l) →
      (t.data ((List.range t.shape.length).map
          (mulEnv (mulResLabels b t.shape.length) idx env)) *
        (tensorinv_numpy_array t a b).data ((invLabels a b t.shape.length).map
          (mulEnv (mulResLabels b t.shape.length) idx env))) =
      (t.data ((List.range t.shape.length).map
          (mulEnv (mulResLabels b t.shape.length) idx env')) *
        (tensorinv_numpy_array t a b).data ((invLabels a b t.shape.length).map
          (mulEnv (mulResLabels b t.shape.length) idx env'))) := by
    intro env env' hag
    have h1 : (List.range t.shape.length).map
        (mulEnv (mulResLabels b t.shape.length) idx env) =
        (List.range t.shape.length).map
          (mulEnv (mulResLabels b t.shape.length) idx env') := by
      apply List.map_congr_left
      intro p hp
      unfold mulEnv
      by_cases hpr : p ∈ mulResLabels b t.shape.length
      · rw [if_pos hpr, if_pos hpr]
      · rw [if_neg hpr, if_neg hpr]
        exact hag p (mem_b_of_range_not_res (List.mem_range.mp hp) hpr)
    have h2 : (invLabels a b t.shape.length).map
        (mulEnv (mulResLabels b t.shape.length) idx env) =
        (invLabels a b t.shape.length).map
          (mulEnv (mulResLabels b t.shape.length) idx env') := by
      apply List.map_congr_left
      intro p hp
      unfold mulEnv
      by_cases hpr : p ∈ mulResLabels b t.shape.length
      · rw [if_pos hpr, if_pos hpr]
      · rw [if_neg hpr, if_neg hpr]
        exact hag p (mem_b_of_invLabels_not_res hlab hp hpr)
    rw [h1, h2]
  rw [sumAssign_flat b (mulLabelSize t (tensorinv_numpy_array t a b)
    (List.range t.shape.length) (invLabels a b t.shape.length)) _ hnb hFcong]
  have hbsz : b.map (mulLabelSize t (tensorinv_numpy_array t a b)
      (List.range t.shape.length) (invLabels a b t.shape.length)) =
      pickIdx t.shape b := by
    apply List.map_congr_left
    intro l hl
    unfold mulLabelSize
    rw [if_pos (List.mem_range.mpr (hbb l hl)), indexOf_range (hbb l hl)]
  rw [hbsz]
  have hsummand : ∀ v ∈ Finset.range (pickIdx t.shape b).prod,
      (t.data ((List.range t.shape.length).map
          (mulEnv (mulResLabels b t.shape.length) idx
            (envOf b (decodeIdx (pickIdx t.shape b) v)))) *
        (tensorinv_numpy_array t a b).data ((invLabels a b t.shape.length).map
          (mulEnv (mulResLabels b t.shape.length) idx
            (envOf b (decodeIdx (pickIdx t.shape b) v))))) =
      (fun w => if h : w < (pickIdx t.shape a).prod then
        matViewSq t a b (pickIdx idx (batchAxes a b t.shape.length))
          ⟨encodeIdx (pickIdx t.shape a) (pickIdx idx a), hiRow⟩ ⟨w, h⟩ *
        matInverse (matViewSq t a b (pickIdx idx (batchAxes a b t.shape.length)))
          ⟨w, h⟩ ⟨encodeIdx (pickIdx t.shape b) (pickIdx idx b), hjCol⟩
        else 0) v := by
    intro v hvmem
    have hv : v < (pickIdx t.shape b).prod := Finset.mem_range.mp hvmem
    have hvna : v < (pickIdx t.shape a).prod := by omega
    dsimp only
    rw [dif_pos hvna]
    have h1 := map_mulEnv_range (a := a) (b := b)
      (c := decodeIdx (pickIdx t.shape b) v) hd hbb hlidx
    have h3 := map_mulEnv_invLabels (a := a) (b := b)
      (c := decodeIdx (pickIdx t.shape b) v) hnb hd hlab hbb hlidx
    rw [h1, h3]
    have h2 : t.data (assemble3 t.shape.length a b (pickIdx idx a)
        (decodeIdx (pickIdx t.shape b) v)
        (pickIdx idx (batchAxes a b t.shape.length))) =
        matViewSq t a b (pickIdx idx (batchAxes a b t.shape.length))
          ⟨encodeIdx (pickIdx t.shape a) (pickIdx idx a), hiRow⟩ ⟨v, hvna⟩ := by
      show _ = t.data (assemble3 t.shape.length a b
        (decodeIdx (pickIdx t.shape a)
          (encodeIdx (pickIdx t.shape a) (pickIdx idx a)))
        (decodeIdx (pickIdx t.shape b) v)
        (pickIdx idx (batchAxes a b t.shape.length)))
      rw [decodeIdx_encodeIdx hva]
    have h4 : (tensorinv_numpy_array t a b).data (assemble3 t.shape.length a b
        (decodeIdx (pickIdx t.shape b) v) (pickIdx idx b)
        (pickIdx idx (batchAxes a b t.shape.length))) =
        matInverse (matViewSq t a b (pickIdx idx (batchAxes a b t.shape.length)))
          ⟨v, hvna⟩ ⟨encodeIdx (pickIdx t.shape b) (pickIdx idx b), hjCol⟩ := by
      have hpa : pickIdx (assemble3 t.shape.length a b
          (decodeIdx (pickIdx t.shape b) v) (pickIdx idx b)
          (pickIdx idx (batchAxes a b t.shape.length))) a =
          decodeIdx (pickIdx t.shape b) v := by
        apply pick_assemble3_a hna hba
        rw [length_decodeIdx, length_pickIdx]
        omega
      have hpb2 : pickIdx (assemble3 t.shape.length a b
          (decodeIdx (pickIdx t.shape b) v) (pickIdx idx b)
          (pickIdx idx (batchAxes a b t.shape.length))) b = pickIdx idx b := by
        apply pick_assemble3_b hnb (fun x hx hxa => hd x hxa hx) hbb
        rw [length_pickIdx]
      have hpbat : pickIdx (assemble3 t.shape.length a b
          (decodeIdx (pickIdx t.shape b) v) (pickIdx idx b)
          (pickIdx idx (batchAxes a b t.shape.length))) (batchAxes a b t.shape.length) =
          pickIdx idx (batchAxes a b t.shape.length) := by
        apply pick_assemble3_bat
        rw [length_pickIdx]
      show (if hi : encodeIdx (pickIdx t.shape a) (pickIdx (assemble3 t.shape.length a b
          (decodeIdx (pickIdx t.shape b) v) (pickIdx idx b)
          (pickIdx idx (batchAxes a b t.shape.length))) a) <
            (pickIdx t.shape a).prod then
          if hj : encodeIdx (pickIdx t.shape b) (pickIdx (assemble3 t.shape.length a b
              (decodeIdx (pickIdx t.shape b) v) (pickIdx idx b)
              (pickIdx idx (batchAxes a b t.shape.length))) b) <
              (pickIdx t.shape a).prod then
            matInverse (matViewSq t a b (pickIdx (assemble3 t.shape.length a b
                (decodeIdx (pickIdx t.shape b) v) (pickIdx idx b)
                (pickIdx idx (batchAxes a b t.shape.length)))
                (batchAxes a b t.shape.length)))
              ⟨encodeIdx (pickIdx t.shape a) (pickIdx (assemble3 t.shape.length a b
                (decodeIdx (pickIdx t.shape b) v) (pickIdx idx b)
                (pickIdx idx (batchAxes a b t.shape.length))) a), hi⟩
              ⟨encodeIdx (pickIdx t.shape b) (pickIdx (assemble3 t.shape.length a b
                (decodeIdx (pickIdx t.shape b) v) (pickIdx idx b)
                (pickIdx idx (batchAxes a b t.shape.length))) b), hj⟩
          else 0
        else 0) = _
      simp only [hpa, hpb2, hpbat]
      have he : encodeIdx (pickIdx t.shape a) (decodeIdx (pickIdx t.shape b) v) = v := by
        rw [hsq]
        exact encodeIdx_decodeIdx hv
      simp only [he]
      rw [dif_pos hvna, dif_pos hjCol]
    rw [h2, h4]
  rw [Finset.sum_congr rfl hsummand, ← hprodeq,
    ← Fin.sum_univ_eq_sum_range (fun w => if h : w < (pickIdx t.shape a).prod then
      matViewSq t a b (pickIdx idx (batchAxes a b t.shape.length))
        ⟨encodeIdx (pickIdx t.shape a) (pickIdx idx a), hiRow⟩ ⟨w, h⟩ *
      matInverse (matViewSq t a b (pickIdx idx (batchAxes a b t.shape.length)))
        ⟨w, h⟩ ⟨encodeIdx (pickIdx t.shape b) (pickIdx idx b), hjCol⟩
      else 0) ((pickIdx t.shape a).prod)]
  have hfin : ∀ i : Fin ((pickIdx t.shape a).prod),
      (if h : (i : ℕ) < (pickIdx t.shape a).prod then
        matViewSq t a b (pickIdx idx (batchAxes a b t.shape.length))
          ⟨encodeIdx (pickIdx t.shape a) (pickIdx idx a), hiRow⟩ ⟨(i : ℕ), h⟩ *
        matInverse (matViewSq t a b (pickIdx idx (batchAxes a b t.shape.length)))
          ⟨(i : ℕ), h⟩ ⟨encodeIdx (pickIdx t.shape b) (pickIdx idx b), hjCol⟩
        else 0) =
      matViewSq t a b (pickIdx idx (batchAxes a b t.shape.length))
        ⟨encodeIdx (pickIdx t.shape a) (pickIdx idx a), hiRow⟩ i *
      matInverse (matViewSq t a b (pickIdx idx (batchAxes a b t.shape.length)))
        i ⟨encodeIdx (pickIdx t.shape b) (pickIdx idx b), hjCol⟩ := by
    intro i
    rw [dif_pos i.isLt]
  rw [Finset.sum_congr rfl (fun i _ => hfin i), ← Matrix.mul_apply,
    matInverse_mul_self (hdet _ hbatval), Matrix.one_apply]
  by_cases hab : pickIdx idx a = pickIdx idx b
  · have hIJ : encodeIdx (pickIdx t.shape a) (pickIdx idx a) =
        encodeIdx (pickIdx t.shape b) (pickIdx idx b) := by rw [hab, hsq]
    rw [if_pos hab, if_pos (Fin.ext hIJ)]
  · rw [if_neg hab, if_neg (fun heq => ?_)]
    have hval : encodeIdx (pickIdx t.shape a) (pickIdx idx a) =
        encodeIdx (pickIdx t.shape b) (pickIdx idx b) := congrArg Fin.val heq
    have e1 : decodeIdx (pickIdx t.shape a)
        (encodeIdx (pickIdx t.shape a) (pickIdx idx a)) = pickIdx idx a :=
      decodeIdx_encodeIdx hva
    have e2 : decodeIdx (pickIdx t.shape b)
        (encodeIdx (pickIdx t.shape b) (pickIdx idx b)) = pickIdx idx b :=
      decodeIdx_encodeIdx hvb
    exact hab (by rw [← e1, ← e2, hval, hsq])

/-- Concrete operator for the multiply/inverse identity witness: a 1×1 matrix
holding the entry 1. -/
def invWitnessT : Tensor ℚ := ⟨[1, 1], fun _ => 1⟩

theorem tensormul_tensorinv_identity_witness :
    TensorEq (tensormul_numpy_array invWitnessT
        (tensorinv_numpy_array invWitnessT [0] [1])
        (List.range invWitnessT.shape.length)
        (invLabels [0] [1] invWitnessT.shape.length)
        (mulResLabels [1] invWitnessT.shape.length))
      (deltaTensor invWitnessT.shape [0] [1]) :=
  tensormul_tensorinv_identity invWitnessT [0] [1] (by decide) (by decide)
    (by decide) (by decide) (by decide) (by decide) (by
      intro bIdx hb
      have hb' : ValidIdx [] bIdx := hb
      have hb0 : bIdx = [] := validIdx_nil.mp hb'
      subst hb0
      show (matViewSq invWitnessT [0] [1] [] : Matrix (Fin 1) (Fin 1) ℚ).det ≠ 0
      rw [Matrix.det_fin_one]
      decide)

theorem getD_drop (l : List ℕ) (n k : ℕ) : (l.drop n).getD k 0 = l.getD (n + k) 0 := by
  simp [List.getD_eq_getElem?_getD, List.getElem?_drop]

theorem getD_take {l : List ℕ} {n k : ℕ} (h : k < n) :
    (l.take n).getD k 0 = l.getD k 0 := by
  simp [List.getD_eq_getElem?_getD, List.getElem?_take_of_lt h]

theorem validIdx_take {s1 s2 idx : List ℕ} (h : ValidIdx (s1 ++ s2) idx) :
    ValidIdx s1 (idx.take s1.length) := by
  obtain ⟨hl, hc⟩ := h
  rw [List.length_append] at hl
  constructor
  · rw [List.length_take]
    omega
  · intro i hi
    rw [getD_take hi, ← List.getD_append s1 s2 0 i hi]
    exact hc i (by rw [List.length_append]; omega)

theorem validIdx_drop {s1 s2 idx : List ℕ} (h : ValidIdx (s1 ++ s2) idx) :
    ValidIdx s2 (idx.drop s1.length) := by
  obtain ⟨hl, hc⟩ := h
  rw [List.length_append] at hl
  constructor
  · rw [List.length_drop]
    omega
  · intro i hi
    rw [getD_drop]
    have hval := hc (s1.length + i) (by rw [List.length_append]; omega)
    rwa [List.getD_append_right s1 s2 0 _ (by omega),
      show s1.length + i - s1.length = i by omega] at hval

/-- Modelled from the spec: `tensorsolve_numpy_array(tensor, y, a_axes, b_axes,
res_axes)` of the missing module `libics.func.tensor`: solves
`tensor ×(a_axes,b_axes) x = y` for `x`, slice by slice over the broadcast
axes, via the matrix view of the operator; the result carries the solved
`b_axes` group first (as `res_axes` selects in the regression test) followed
by the broadcast axes, and `y` carries the `a_axes` group first. -/
def tensorsolve_numpy_array {α : Type*} [Field α] (t y : Tensor α)
    (a_axes b_axes res_axes : List ℕ) : Tensor α :=
  ⟨pickIdx t.shape b_axes ++ pickIdx t.shape (batchAxes a_axes b_axes t.shape.length),
   fun xIdx =>
     if hj : encodeIdx (pickIdx t.shape b_axes) (xIdx.take b_axes.length) <
         (pickIdx t.shape a_axes).prod then
       ∑ i : Fin (pickIdx t.shape a_axes).prod,
         matInverse (matViewSq t a_axes b_axes (xIdx.drop b_axes.length))
           ⟨encodeIdx (pickIdx t.shape b_axes) (xIdx.take b_axes.length), hj⟩ i *
         y.data (decodeIdx (pickIdx t.shape a_axes) i.val ++ xIdx.drop b_axes.length)
     else 0⟩

theorem not_mem_solveRes {a b : List ℕ} {r p : ℕ} (hd : ∀ x ∈ a, x ∉ b)
    (hpb : p ∈ b) : p ∉ a ++ batchAxes a b r := by
  rw [List.mem_append]
  rintro (hpa | hpbat)
  · exact hd p hpa hpb
  · exact (mem_batchAxes.mp hpbat).2.2 hpb

theorem mem_b_of_range_not_solveRes {a b : List ℕ} {r l : ℕ} (hl : l < r)
    (hnr : l ∉ a ++ batchAxes a b r) : l ∈ b := by
  by_contra hlb
  rw [List.mem_append] at hnr
  push_neg at hnr
  by_cases hla : l ∈ a
  · exact hnr.1 hla
  · exact hnr.2 (mem_batchAxes.mpr ⟨hl, hla, hlb⟩)

theorem contracted2_perm_b {a b : List ℕ} {r : ℕ} (hnb : b.Nodup)
    (hd : ∀ x ∈ a, x ∉ b) (hbb : ∀ x ∈ b, x < r) :
    List.Perm (((List.range r ++ (b ++ batchAxes a b r)).filter
      (fun l => decide (l ∉ a ++ batchAxes a b r))).dedup) b := by
  rw [List.perm_ext_iff_of_nodup (List.nodup_dedup _) hnb]
  intro l
  rw [List.mem_dedup, List.mem_filter]
  simp only [List.mem_append, decide_eq_true_eq, List.mem_range]
  constructor
  · rintro ⟨hl1, hl2⟩
    rcases hl1 with hrange | hb | hbat
    · exact mem_b_of_range_not_solveRes hrange (by
        rw [List.mem_append]; tauto)
    · exact hb
    · exact absurd (Or.inr hbat) hl2
  · intro hlb
    refine ⟨Or.inl (hbb l hlb), ?_⟩
    have := not_mem_solveRes (r := r) hd hlb
    rw [List.mem_append] at this
    exact this

theorem map_mulEnv_range2 {a b yIdx cIdx : List ℕ} {r : ℕ}
    (hd : ∀ x ∈ a, x ∉ b) :
    (List.range r).map (mulEnv (a ++ batchAxes a b r) yIdx (envOf b cIdx)) =
      assemble3 r a b (yIdx.take a.length) cIdx (yIdx.drop a.length) := by
  apply List.ext_getElem
  · simp [assemble3]
  · intro p h1 h2
    have hpr : p < r := by simpa using h1
    rw [List.getElem_map, List.getElem_range,
      ← List.getD_eq_getElem (assemble3 r a b (yIdx.take a.length) cIdx
        (yIdx.drop a.length)) 0 h2, getD_assemble3 hpr]
    unfold mulEnv envOf
    by_cases hpa : p ∈ a
    · have hmem : p ∈ a ++ batchAxes a b r := List.mem_append.mpr (Or.inl hpa)
      rw [if_pos hmem, if_pos hpa, List.indexOf_append_of_mem hpa,
        getD_take (List.indexOf_lt_length.mpr hpa)]
    · rw [if_neg hpa]
      by_cases hpb : p ∈ b
      · rw [if_neg (not_mem_solveRes hd hpb), if_pos hpb, if_pos hpb]
      · have hpbat : p ∈ batchAxes a b r := mem_batchAxes.mpr ⟨hpr, hpa, hpb⟩
        have hmem : p ∈ a ++ batchAxes a b r := List.mem_append.mpr (Or.inr hpbat)
        rw [if_pos hmem, if_neg hpb, List.indexOf_append_of_not_mem hpa,
          getD_drop]

theorem map_mulEnv_bbat {a b y c : List ℕ} {r : ℕ} (hnb : b.Nodup)
    (hd : ∀ x ∈ a, x ∉ b) (hcl : c.length = b.length)
    (hdz : (y.drop a.length).length = (batchAxes a b r).length) :
    (b ++ batchAxes a b r).map (mulEnv (a ++ batchAxes a b r) y (envOf b c)) =
      c ++ y.drop a.length := by
  rw [List.map_append]
  congr 1
  · apply List.ext_getElem
    · simp [hcl]
    · intro k h1 h2
      have hk : k < b.length := by simpa using h1
      rw [List.getElem_map]
      have hmem : b[k] ∈ b := List.getElem_mem _
      unfold mulEnv envOf
      rw [if_neg (not_mem_solveRes hd hmem), if_pos hmem,
        ← List.getD_eq_getElem b 0 hk, nodup_indexOf_getD hnb hk,
        List.getD_eq_getElem _ 0 h2]
  · apply List.ext_getElem
    · simpa using hdz.symm
    · intro k h1 h2
      have hk : k < (batchAxes a b r).length := by simpa using h1
      rw [List.getElem_map]
      have hmem : (batchAxes a b r)[k] ∈ batchAxes a b r := List.getElem_mem _
      have hpa : (batchAxes a b r)[k] ∉ a := (mem_batchAxes.mp hmem).2.1
      unfold mulEnv
      rw [if_pos (List.mem_append.mpr (Or.inr hmem)),
        List.indexOf_append_of_not_mem hpa, ← List.getD_eq_getElem
          (batchAxes a b r) 0 hk, nodup_indexOf_getD nodup_batchAxes hk,
        ← getD_drop, List.getD_eq_getElem _ 0 h2]

theorem tensormul_solve_shape {α : Type*} [CommRing α] (t x : Tensor α)
    (a b : List ℕ) (hba : ∀ p ∈ a, p < t.shape.length) :
    (a ++ batchAxes a b t.shape.length).map
      (mulLabelSize t x (List.range t.shape.length)
        (b ++ batchAxes a b t.shape.length)) =
      pickIdx t.shape a ++ pickIdx t.shape (batchAxes a b t.shape.length) := by
  rw [List.map_append]
  congr 1
  · apply List.map_congr_left
    intro l hl
    unfold mulLabelSize
    rw [if_pos (List.mem_range.mpr (hba l hl)), indexOf_range (hba l hl)]
  · apply List.map_congr_left
    intro l hl
    have hlr : l < t.shape.length := (mem_batchAxes.mp hl).1
    unfold mulLabelSize
    rw [if_pos (List.mem_range.mpr hlr), indexOf_range hlr]

theorem tensormul_solve_apply {α : Type*} [Field α] (t x : Tensor α)
    (a b : List ℕ) (hnb : b.Nodup) (hd : ∀ x ∈ a, x ∉ b)
    (hbb : ∀ x ∈ b, x < t.shape.length) (yIdx : List ℕ) :
    (tensormul_numpy_array t x (List.range t.shape.length)
      (b ++ batchAxes a b t.shape.length)
      (a ++ batchAxes a b t.shape.length)).data yIdx =
    ∑ w ∈ Finset.range (pickIdx t.shape b).prod,
      t.data (assemble3 t.shape.length a b (yIdx.take a.length)
        (decodeIdx (pickIdx t.shape b) w) (yIdx.drop a.length)) *
      x.data ((b ++ batchAxes a b t.shape.length).map
        (mulEnv (a ++ batchAxes a b t.shape.length) yIdx
          (envOf b (decodeIdx (pickIdx t.shape b) w)))) := by
  show sumAssign
      (((List.range t.shape.length ++ (b ++ batchAxes a b t.shape.length)).filter
        (fun l => decide (l ∉ a ++ batchAxes a b t.shape.length))).dedup.map
        (fun l => (l, mulLabelSize t x (List.range t.shape.length)
          (b ++ batchAxes a b t.shape.length) l)))
      (fun env =>
        t.data ((List.range t.shape.length).map
          (mulEnv (a ++ batchAxes a b t.shape.length) yIdx env)) *
        x.data ((b ++ batchAxes a b t.shape.length).map
          (mulEnv (a ++ batchAxes a b t.shape.length) yIdx env))) = _
  have hfst2 : ((((List.range t.shape.length ++
      (b ++ batchAxes a b t.shape.length)).filter
      (fun l => decide (l ∉ a ++ batchAxes a b t.shape.length))).dedup.map
      (fun l => (l, mulLabelSize t x (List.range t.shape.length)
        (b ++ batchAxes a b t.shape.length) l))).map Prod.fst).Nodup := by
    rw [List.map_map]
    have hcomp : (Prod.fst ∘ fun l : ℕ =>
        (l, mulLabelSize t x (List.range t.shape.length)
          (b ++ batchAxes a b t.shape.length) l)) = id := by
      funext l; rfl
    rw [hcomp, List.map_id]
    exact List.nodup_dedup _
  rw [sumAssign_perm (List.Perm.map _ (contracted2_perm_b hnb hd hbb)) hfst2]
  have hFcong2 : ∀ env env' : ℕ → ℕ, (∀ l ∈ b, env l = env' l) →
      (t.data ((List.range t.shape.length).map
          (mulEnv (a ++ batchAxes a b t.shape.length) yIdx env)) *
        x.data ((b ++ batchAxes a b t.shape.length).map
          (mulEnv (a ++ batchAxes a b t.shape.length) yIdx env))) =
      (t.data ((List.range t.shape.length).map
          (mulEnv (a ++ batchAxes a b t.shape.length) yIdx env')) *
        x.data ((b ++ batchAxes a b t.shape.length).map
          (mulEnv (a ++ batchAxes a b t.shape.length) yIdx env'))) := by
    intro env env' hag
    have h1 : (List.range t.shape.length).map
        (mulEnv (a ++ batchAxes a b t.shape.length) yIdx env) =
        (List.range t.shape.length).map
          (mulEnv (a ++ batchAxes a b t.shape.length) yIdx env') := by
      apply List.map_congr_left
      intro p hp
      unfold mulEnv
      by_cases hpr : p ∈ a ++ batchAxes a b t.shape.length
      · rw [if_pos hpr, if_pos hpr]
      · rw [if_neg hpr, if_neg hpr]
        exact hag p (mem_b_of_range_not_solveRes (List.mem_range.mp hp) hpr)
    have h2 : (b ++ batchAxes a b t.shape.length).map
        (mulEnv (a ++ batchAxes a b t.shape.length) yIdx env) =
        (b ++ batchAxes a b t.shape.length).map
          (mulEnv (a ++ batchAxes a b t.shape.length) yIdx env') := by
      apply List.map_congr_left
      intro p hp
      unfold mulEnv
      by_cases hpr : p ∈ a ++ batchAxes a b t.shape.length
      · rw [if_pos hpr, if_pos hpr]
      · rw [if_neg hpr, if_neg hpr]
        rcases List.mem_append.mp hp with hpb | hpbat
        · exact hag p hpb
        · exact absurd (List.mem_append.mpr (Or.inr hpbat)) hpr
    rw [h1, h2]
  rw [sumAssign_flat b (mulLabelSize t x (List.range t.shape.length)
    (b ++ batchAxes a b t.shape.length)) _ hnb hFcong2]
  have hbsz2 : b.map (mulLabelSize t x (List.range t.shape.length)
      (b ++ batchAxes a b t.shape.length)) = pickIdx t.shape b := by
    apply List.map_congr_left
    intro l hl
    unfold mulLabelSize
    rw [if_pos (List.mem_range.mpr (hbb l hl)), indexOf_range (hbb l hl)]
  rw [hbsz2]
  refine Finset.sum_congr rfl (fun w _ => ?_)
  dsimp only
  rw [map_mulEnv_range2 hd]

/-- **C4.** For every invertible operator tensor `M` (disjoint square axis
groups with equal shapes, invertible matrix view at every batch index) and
every tensor `x` of the compatible canonical shape, `solve` applied to `M` and
the product `multiply(M, x, ...)` recovers `x` exactly, broadcast axes
included. -/
theorem tensorsolve_tensormul {α : Type*} [Field α] (t x : Tensor α)
    (a b : List ℕ) (hna : a.Nodup) (hnb : b.Nodup) (hd : ∀ p ∈ a, p ∉ b)
    (hba : ∀ p ∈ a, p < t.shape.length) (hbb : ∀ p ∈ b, p < t.shape.length)
    (hsq : pickIdx t.shape a = pickIdx t.shape b)
    (hdet : ∀ bIdx, ValidIdx (pickIdx t.shape (batchAxes a b t.shape.length)) bIdx →
      (matViewSq t a b bIdx).det ≠ 0)
    (hxshape : x.shape = pickIdx t.shape b ++
      pickIdx t.shape (batchAxes a b t.shape.length)) :
    TensorEq (tensorsolve_numpy_array t
        (tensormul_numpy_array t x (List.range t.shape.length)
          (b ++ batchAxes a b t.shape.length)
          (a ++ batchAxes a b t.shape.length))
        a b (List.range b.length)) x := by
  have hlab : a.length = b.length := by
    have hc := congrArg List.length hsq
    simpa [pickIdx] using hc
  have hprodeq : (pickIdx t.shape a).prod = (pickIdx t.shape b).prod := by rw [hsq]
  refine ⟨hxshape.symm, fun xIdx hx => ?_⟩
  rw [hxshape] at hx
  have hlb : (pickIdx t.shape b).length = b.length := length_pickIdx _ _
  have hv1 : ValidIdx (pickIdx t.shape b) (xIdx.take b.length) := by
    have := validIdx_take hx
    rwa [hlb] at this
  have hvz : ValidIdx (pickIdx t.shape (batchAxes a b t.shape.length))
      (xIdx.drop b.length) := by
    have := validIdx_drop hx
    rwa [hlb] at this
  have hjb : encodeIdx (pickIdx t.shape b) (xIdx.take b.length) <
      (pickIdx t.shape b).prod := encodeIdx_lt hv1
  have hjbna : encodeIdx (pickIdx t.shape b) (xIdx.take b.length) <
      (pickIdx t.shape a).prod := by omega
  show (if hj : encodeIdx (pickIdx t.shape b) (xIdx.take b.length) <
      (pickIdx t.shape a).prod then
    ∑ i : Fin (pickIdx t.shape a).prod,
      matInverse (matViewSq t a b (xIdx.drop b.length))
        ⟨encodeIdx (pickIdx t.shape b) (xIdx.take b.length), hj⟩ i *
      (tensormul_numpy_array t x (List.range t.shape.length)
        (b ++ batchAxes a b t.shape.length)
        (a ++ batchAxes a b t.shape.length)).data
        (decodeIdx (pickIdx t.shape a) i.val ++ xIdx.drop b.length)
    else 0) = x.data xIdx
  rw [dif_pos hjbna]
  have hstep1 : ∀ i : Fin (pickIdx t.shape a).prod,
      (tensormul_numpy_array t x (List.range t.shape.length)
        (b ++ batchAxes a b t.shape.length)
        (a ++ batchAxes a b t.shape.length)).data
        (decodeIdx (pickIdx t.shape a) i.val ++ xIdx.drop b.length) =
      ∑ j : Fin (pickIdx t.shape a).prod,
        matViewSq t a b (xIdx.drop b.length) i j *
        x.data ((b ++ batchAxes a b t.shape.length).map
          (mulEnv (a ++ batchAxes a b t.shape.length)
            (decodeIdx (pickIdx t.shape a) i.val ++ xIdx.drop b.length)
            (envOf b (decodeIdx (pickIdx t.shape b) j.val)))) := by
    intro i
    rw [tensormul_solve_apply t x a b hnb hd hbb]
    have htake : (decodeIdx (pickIdx t.shape a) i.val ++
        xIdx.drop b.length).take a.length = decodeIdx (pickIdx t.shape a) i.val :=
      List.take_left' (by rw [length_decodeIdx, length_pickIdx])
    have hdrop : (decodeIdx (pickIdx t.shape a) i.val ++
        xIdx.drop b.length).drop a.length = xIdx.drop b.length :=
      List.drop_left' (by rw [length_decodeIdx, length_pickIdx])
    rw [htake, hdrop]
    have hpt : ∀ w ∈ Finset.range (pickIdx t.shape b).prod,
        (t.data (assemble3 t.shape.length a b
            (decodeIdx (pickIdx t.shape a) i.val)
            (decodeIdx (pickIdx t.shape b) w) (xIdx.drop b.length)) *
          x.data ((b ++ batchAxes a b t.shape.length).map
            (mulEnv (a ++ batchAxes a b t.shape.length)
              (decodeIdx (pickIdx t.shape a) i.val ++ xIdx.drop b.length)
              (envOf b (decodeIdx (pickIdx t.shape b) w))))) =
        (fun u => if h : u < (pickIdx t.shape a).prod then
          matViewSq t a b (xIdx.drop b.length) i ⟨u, h⟩ *
          x.data ((b ++ batchAxes a b t.shape.length).map
            (mulEnv (a ++ batchAxes a b t.shape.length)
              (decodeIdx (pickIdx t.shape a) i.val ++ xIdx.drop b.length)
              (envOf b (decodeIdx (pickIdx t.shape b) u))))
          else 0) w := by
      intro w hw
      have hwb : w < (pickIdx t.shape b).prod := Finset.mem_range.mp hw
      have hwa : w < (pickIdx t.shape a).prod := by omega
      dsimp only
      rw [dif_pos hwa]
      rfl
    rw [Finset.sum_congr rfl hpt, ← hprodeq,
      ← Fin.sum_univ_eq_sum_range (fun u => if h : u < (pickIdx t.shape a).prod then
        matViewSq t a b (xIdx.drop b.length) i ⟨u, h⟩ *
        x.data ((b ++ batchAxes a b t.shape.length).map
          (mulEnv (a ++ batchAxes a b t.shape.length)
            (decodeIdx (pickIdx t.shape a) i.val ++ xIdx.drop b.length)
            (envOf b (decodeIdx (pickIdx t.shape b) u))))
        else 0) ((pickIdx t.shape a).prod)]
    refine Finset.sum_congr rfl (fun j _ => ?_)
    rw [dif_pos j.isLt]
  rw [Finset.sum_congr rfl (fun i _ => by rw [hstep1 i])]
  have hzlen : (xIdx.drop b.length).length = (batchAxes a b t.shape.length).length := by
    have h1 := hvz.1
    rwa [length_pickIdx] at h1
  have hx2 : ∀ i j : Fin (pickIdx t.shape a).prod,
      x.data ((b ++ batchAxes a b t.shape.length).map
        (mulEnv (a ++ batchAxes a b t.shape.length)
          (decodeIdx (pickIdx t.shape a) i.val ++ xIdx.drop b.length)
          (envOf b (decodeIdx (pickIdx t.shape b) j.val)))) =
      x.data (decodeIdx (pickIdx t.shape b) j.val ++ xIdx.drop b.length) := by
    intro i j
    have hdrop : (decodeIdx (pickIdx t.shape a) i.val ++
        xIdx.drop b.length).drop a.length = xIdx.drop b.length :=
      List.drop_left' (by rw [length_decodeIdx, length_pickIdx])
    have hmm := map_mulEnv_bbat (r := t.shape.length)
      (y := decodeIdx (pickIdx t.shape a) i.val ++ xIdx.drop b.length)
      (c := decodeIdx (pickIdx t.shape b) j.val) hnb hd
      (by rw [length_decodeIdx, length_pickIdx]) (by rw [hdrop]; exact hzlen)
    rw [hmm, hdrop]
  simp only [hx2]
  have hmulsum : ∀ i : Fin (pickIdx t.shape a).prod,
      matInverse (matViewSq t a b (xIdx.drop b.length))
        ⟨encodeIdx (pickIdx t.shape b) (xIdx.take b.length), hjbna⟩ i *
      (∑ j : Fin (pickIdx t.shape a).prod,
        matViewSq t a b (xIdx.drop b.length) i j *
        x.data (decodeIdx (pickIdx t.shape b) j.val ++ xIdx.drop b.length)) =
      ∑ j : Fin (pickIdx t.shape a).prod,
        (matInverse (matViewSq t a b (xIdx.drop b.length))
          ⟨encodeIdx (pickIdx t.shape b) (xIdx.take b.length), hjbna⟩ i *
        matViewSq t a b (xIdx.drop b.length) i j) *
        x.data (decodeIdx (pickIdx t.shape b) j.val ++ xIdx.drop b.length) := by
    intro i
    rw [Finset.mul_sum]
    exact Finset.sum_congr rfl (fun j _ => (mul_assoc _ _ _).symm)
  rw [Finset.sum_congr rfl (fun i _ => hmulsum i), Finset.sum_comm]
  have hcol : ∀ j : Fin (pickIdx t.shape a).prod,
      (∑ i : Fin (pickIdx t.shape a).prod,
        (matInverse (matViewSq t a b (xIdx.drop b.length))
          ⟨encodeIdx (pickIdx t.shape b) (xIdx.take b.length), hjbna⟩ i *
        matViewSq t a b (xIdx.drop b.length) i j) *
        x.data (decodeIdx (pickIdx t.shape b) j.val ++ xIdx.drop b.length)) =
      (1 : Matrix (Fin (pickIdx t.shape a).prod)
        (Fin (pickIdx t.shape a).prod) α)
        ⟨encodeIdx (pickIdx t.shape b) (xIdx.take b.length), hjbna⟩ j *
      x.data (decodeIdx (pickIdx t.shape b) j.val ++ xIdx.drop b.length) := by
    intro j
    rw [← Finset.sum_mul, ← Matrix.mul_apply,
      matInverse_self_mul (hdet _ hvz)]
  rw [Finset.sum_congr rfl (fun j _ => hcol j)]
  rw [Finset.sum_eq_single (⟨encodeIdx (pickIdx t.shape b) (xIdx.take b.length),
      hjbna⟩ : Fin (pickIdx t.shape a).prod)
    (fun j _ hne => by rw [Matrix.one_apply_ne (Ne.symm hne), zero_mul])
    (fun h => absurd (Finset.mem_univ _) h)]
  rw [Matrix.one_apply_eq, one_mul]
  show x.data (decodeIdx (pickIdx t.shape b)
    (encodeIdx (pickIdx t.shape b) (xIdx.take b.length)) ++ xIdx.drop b.length) = _
  rw [decodeIdx_encodeIdx hv1, List.take_append_drop]

/-- Concrete right-hand side for the tensor-solve witness: a vector of length 1
holding the entry 5. -/
def solveWitnessX : Tensor ℚ := ⟨[1], fun _ => 5⟩

theorem tensorsolve_tensormul_witness :
    TensorEq (tensorsolve_numpy_array invWitnessT
        (tensormul_numpy_array invWitnessT solveWitnessX
          (List.range invWitnessT.shape.length)
          ([1] ++ batchAxes [0] [1] invWitnessT.shape.length)
          ([0] ++ batchAxes [0] [1] invWitnessT.shape.length))
        [0] [1] (List.range 1)) solveWitnessX :=
  tensorsolve_tensormul invWitnessT solveWitnessX [0] [1] (by decide) (by decide)
    (by decide) (by decide) (by decide) (by decide)
    (by
      intro bIdx hb
      have hb' : ValidIdx [] bIdx := hb
      have hb0 : bIdx = [] := validIdx_nil.mp hb'
      subst hb0
      show (matViewSq invWitnessT [0] [1] [] : Matrix (Fin 1) (Fin 1) ℚ).det ≠ 0
      rw [Matrix.det_fin_one]
      decide)
    (by decide)

/-- Modelled from the spec: the `LinearSystem` class of the missing module
`libics.func.tensor`: owns an operator tensor, its domain/codomain axis groups
(`mata_axes`, `matb_axes`), the positions `vec_axes` those groups occupy in
the solution/result tensors, and the mutable `solution`/`result` tensors set
by the caller between calls. -/
structure LinearSystem (α : Type*) where
  matrix : Tensor α
  mata_axes : List ℕ
  matb_axes : List ℕ
  vec_axes : List ℕ
  solution : Tensor α
  result : Tensor α

/-- Labels a solution/result tensor carries in `LinearSystem.eval`: the
`vec_axes` positions are aligned with the operator group `grp`, the remaining
(broadcast) axes carry their own position. -/
def vecLabels (grp vec : List ℕ) (n : ℕ) : List ℕ :=
  (List.range n).map (fun p => if p ∈ vec then grp.getD (vec.indexOf p) 0 else p)

/-- Modelled from the spec: `LinearSystem.eval()` — applies the forward linear
map, setting `result = multiply(operator, solution)` with the full operator
axes as left labels, the solution's `vec_axes` aligned with `matb_axes`, and
the result's `vec_axes` aligned with `mata_axes`. -/
def LinearSystem.eval {α : Type*} [CommRing α] (ls : LinearSystem α) :
    LinearSystem α :=
  { ls with result := (tensormul_numpy_array ls.matrix ls.solution
      (List.range ls.matrix.shape.length)
      (vecLabels ls.matb_axes ls.vec_axes ls.solution.shape.length)
      (vecLabels ls.mata_axes ls.vec_axes ls.solution.shape.length)) }

/-- The textbook matrix–vector product `M·x` as a length-`n` tensor. -/
def matVecTensor {α : Type*} [CommRing α] (n : ℕ) (M x : Tensor α) : Tensor α :=
  ⟨[n], fun idx => ∑ j ∈ Finset.range n, M.data [idx.getD 0 0, j] * x.data [j]⟩

/-- **C5.** For a `LinearSystem` holding an n×n matrix (axis groups `[0]`/`[1]`,
vector axes `[0]`) whose `solution` is a length-n vector `x`, `eval()` sets
`result` to the contraction of the operator with the solution — the forward
linear map `M·x`; in particular for a 3×3 matrix this is the concrete spec
scenario. -/
theorem linear_system_eval_matvec {α : Type*} [CommRing α] (ls : LinearSystem α)
    (n : ℕ) (hm : ls.matrix.shape = [n, n]) (hs : ls.solution.shape = [n])
    (ha : ls.mata_axes = [0]) (hb : ls.matb_axes = [1]) (hv : ls.vec_axes = [0]) :
    TensorEq (LinearSystem.eval ls).result (matVecTensor n ls.matrix ls.solution) := by
  obtain ⟨M, ma, mb, vx, sol, res⟩ := ls
  dsimp only at hm hs ha hb hv ⊢
  subst ha hb hv
  show TensorEq (tensormul_numpy_array M sol (List.range M.shape.length)
    (vecLabels [1] [0] sol.shape.length) (vecLabels [0] [0] sol.shape.length))
    (matVecTensor n M sol)
  rw [hm, hs]
  show TensorEq (tensormul_numpy_array M sol (List.range 2)
    (vecLabels [1] [0] 1) (vecLabels [0] [0] 1)) (matVecTensor n M sol)
  have hsz : mulLabelSize M sol (List.range 2) (vecLabels [1] [0] 1) 1 = n := by
    unfold mulLabelSize
    rw [if_pos (by decide), show (List.range 2).indexOf 1 = 1 by decide, hm]
    rfl
  constructor
  · show (vecLabels [0] [0] 1).map
      (mulLabelSize M sol (List.range 2) (vecLabels [1] [0] 1)) = [n]
    show [mulLabelSize M sol (List.range 2) (vecLabels [1] [0] 1) 0] = [n]
    unfold mulLabelSize
    rw [if_pos (by decide), show (List.range 2).indexOf 0 = 0 by decide, hm]
    rfl
  · intro idx hidx
    show sumAssign
      (((List.range 2 ++ vecLabels [1] [0] 1).filter
        (fun l => decide (l ∉ vecLabels [0] [0] 1))).dedup.map
        (fun l => (l, mulLabelSize M sol (List.range 2) (vecLabels [1] [0] 1) l)))
      (fun env =>
        M.data ((List.range 2).map (mulEnv (vecLabels [0] [0] 1) idx env)) *
        sol.data ((vecLabels [1] [0] 1).map (mulEnv (vecLabels [0] [0] 1) idx env))) =
      ∑ j ∈ Finset.range n, M.data [idx.getD 0 0, j] * sol.data [j]
    have hded : ((List.range 2 ++ vecLabels [1] [0] 1).filter
        (fun l => decide (l ∉ vecLabels [0] [0] 1))).dedup = [1] := by decide
    rw [hded]
    show (∑ i ∈ Finset.range
        (mulLabelSize M sol (List.range 2) (vecLabels [1] [0] 1) 1),
      (fun env =>
        M.data ((List.range 2).map (mulEnv (vecLabels [0] [0] 1) idx env)) *
        sol.data ((vecLabels [1] [0] 1).map (mulEnv (vecLabels [0] [0] 1) idx env)))
        (Function.update (fun _ => 0) 1 i)) =
      ∑ j ∈ Finset.range n, M.data [idx.getD 0 0, j] * sol.data [j]
    rw [hsz]
    exact Finset.sum_congr rfl (fun j _ => rfl)

/-- The concrete 3×3 scenario system: matrix entries 0..8, solution (1,2,3). -/
def evalWitnessLS : LinearSystem ℚ :=
  ⟨⟨[3, 3], fun idx => (encodeIdx [3, 3] idx : ℚ)⟩, [0], [1], [0],
   ⟨[3], fun idx => (idx.getD 0 0 : ℚ) + 1⟩, ⟨[3], fun _ => 0⟩⟩

theorem linear_system_eval_matvec_witness :
    TensorEq (LinearSystem.eval evalWitnessLS).result
      (matVecTensor 3 evalWitnessLS.matrix evalWitnessLS.solution) :=
  linear_system_eval_matvec evalWitnessLS 3 rfl rfl rfl rfl rfl

/-- The error conditions of the tensor engine relevant to the eigenbasis
layer. -/
inductive TensorError
  | singularEigenvalue
  deriving DecidableEq

/-- Modelled from the spec: the `DiagonalizableLS` class of the missing module
`libics.func.tensor`, seen through the square matrix view of its operator over
(`mata_axes`, `matb_axes`) that `calc_eigensystem` works with (the Axis
Remapper reduces all tensors involved to this form).  `eigvals`, `leigvecs`
(rows = left eigenvectors), `reigvecs` (rows = right eigenvectors) and
`decomp` are the per-instance caches; `solution`/`result` are the mutable
vectors set by the caller. -/
structure DiagonalizableLS (α : Type*) (n : ℕ) where
  matrix : Matrix (Fin n) (Fin n) α
  solution : Fin n → α
  result : Fin n → α
  eigvals : Fin n → α
  leigvecs : Matrix (Fin n) (Fin n) α
  reigvecs : Matrix (Fin n) (Fin n) α
  decomp : Fin n → α

/-- Modelled from the spec: `eval()` at the matrix-view level — the forward
linear map `result = M · solution`. -/
def DiagonalizableLS.eval {α : Type*} [CommRing α] {n : ℕ}
    (ls : DiagonalizableLS α n) : DiagonalizableLS α n :=
  { ls with result := fun i => ∑ j, ls.matrix i j * ls.solution j }

/-- Modelled from the spec: `calc_eigensystem()` of `DiagonalizableLS` — takes
the output of the external general eigensolver (eigenvalues `w` and the matrix
`V` whose columns are the right eigenvectors) and computes the left
eigenvectors from the inverse relation, `L = V⁻¹`. -/
def DiagonalizableLS.calc_eigensystem {α : Type*} [Field α] {n : ℕ}
    (ls : DiagonalizableLS α n) (w : Fin n → α) (V : Matrix (Fin n) (Fin n) α) :
    DiagonalizableLS α n :=
  { ls with eigvals := w, reigvecs := V.transpose, leigvecs := matInverse V }

/-- Modelled from the spec: `decomp_solution()` — projects `solution` onto the
left eigenvectors: `decomp[i] = contraction(leigvecs[i], solution)`. -/
def DiagonalizableLS.decomp_solution {α : Type*} [CommRing α] {n : ℕ}
    (ls : DiagonalizableLS α n) : DiagonalizableLS α n :=
  { ls with decomp := fun i => ∑ j, ls.leigvecs i j * ls.solution j }

/-- Modelled from the spec: `decomp_result()` — projects `result` onto the left
eigenvectors and divides by the matching eigenvalue; fails with the
singular-eigenvalue condition when any eigenvalue used in a division is zero
(within tolerance, i.e. exactly zero in the idealized arithmetic), producing
no partial decomposition. -/
def DiagonalizableLS.decomp_result {α : Type*} [Field α] [DecidableEq α] {n : ℕ}
    (ls : DiagonalizableLS α n) : Except TensorError (DiagonalizableLS α n) :=
  if _h : ∃ i, ls.eigvals i = 0 then Except.error TensorError.singularEigenvalue
  else Except.ok { ls with decomp := fun i =>
    (∑ j, ls.leigvecs i j * ls.result j) / ls.eigvals i }

/-- Modelled from the spec: `calc_result()` — reconstructs `result` as the
eigenvalue-weighted sum over right eigenvectors:
`result = Σ_i decomp[i] * eigvals[i] * reigvecs[i]`. -/
def DiagonalizableLS.calc_result {α : Type*} [CommRing α] {n : ℕ}
    (ls : DiagonalizableLS α n) : DiagonalizableLS α n :=
  { ls with result := fun k => ∑ i, ls.decomp i * ls.eigvals i * ls.reigvecs i k }

/-- Modelled from the spec: `calc_solution()` — reconstructs `solution` as the
unweighted sum `solution = Σ_i decomp[i] * reigvecs[i]`. -/
def DiagonalizableLS.calc_solution {α : Type*} [CommRing α] {n : ℕ}
    (ls : DiagonalizableLS α n) : DiagonalizableLS α n :=
  { ls with solution := fun k => ∑ i, ls.decomp i * ls.reigvecs i k }

/-- Modelled from the spec: `solve()` — `decomp_result()` followed by
`calc_solution()`. -/
def DiagonalizableLS.solve {α : Type*} [Field α] [DecidableEq α] {n : ℕ}
    (ls : DiagonalizableLS α n) : Except TensorError (DiagonalizableLS α n) :=
  ls.decomp_result.map DiagonalizableLS.calc_solution

theorem sum_eq_mulVec {α : Type*} [CommRing α] {n : ℕ}
    (A : Matrix (Fin n) (Fin n) α) (v : Fin n → α) (i : Fin n) :
    (∑ j, A i j * v j) = (A.mulVec v) i := rfl

/-- **C6.** After `calc_eigensystem()` on a `DiagonalizableLS` (for any
operator the class accepts, i.e. any eigensolver output with invertible
right-eigenvector matrix), the eigensystem is biorthogonal: contracting left
eigenvector `i` with right eigenvector `j` gives the Kronecker delta. -/
theorem diagonalizable_ls_biorthogonality {α : Type*} [Field α]
    [DecidableEq α] {n : ℕ} (ls : DiagonalizableLS α n) (w : Fin n → α)
    (V : Matrix (Fin n) (Fin n) α) (hdet : V.det ≠ 0) :
    ∀ i j, (∑ k, (ls.calc_eigensystem w V).leigvecs i k *
      (ls.calc_eigensystem w V).reigvecs j k) = if i = j then 1 else 0 := by
  intro i j
  show (∑ k, matInverse V i k * V.transpose j k) = _
  have hstep : (∑ k, matInverse V i k * V.transpose j k) = (matInverse V * V) i j := by
    rw [Matrix.mul_apply]
    exact Finset.sum_congr rfl (fun k _ => by rw [Matrix.transpose_apply])
  rw [hstep, matInverse_self_mul hdet, Matrix.one_apply]

theorem diagonalizable_ls_biorthogonality_witness :
    (∑ k, ((DiagonalizableLS.calc_eigensystem
        ⟨Matrix.diagonal (fun _ => 2), fun _ => 3, fun _ => 0, fun _ => 0,
          0, 0, fun _ => 0⟩
        (fun _ => (2 : ℚ)) 1).leigvecs 0 k *
      (DiagonalizableLS.calc_eigensystem
        (⟨Matrix.diagonal (fun _ => 2), fun _ => 3, fun _ => 0, fun _ => 0,
          0, 0, fun _ => 0⟩ : DiagonalizableLS ℚ 1)
        (fun _ => (2 : ℚ)) 1).reigvecs 0 k)) =
      if (0 : Fin 1) = 0 then 1 else 0 :=
  diagonalizable_ls_biorthogonality _ (fun _ => (2 : ℚ)) 1
    (by rw [Matrix.det_one]; exact one_ne_zero) 0 0

/-- **C8.** `decomp_result()` fails with the singular-eigenvalue condition
exactly when some eigenvalue is zero, producing no partial decomposition; on
success it produces `decomp[i] = contraction(leigvecs[i], result) / eigvals[i]`. -/
theorem decomp_result_spec {α : Type*} [Field α] [DecidableEq α] {n : ℕ}
    (ls : DiagonalizableLS α n) :
    ((∃ i, ls.eigvals i = 0) →
      ls.decomp_result = Except.error TensorError.singularEigenvalue) ∧
    ((∀ i, ls.eigvals i ≠ 0) →
      ls.decomp_result = Except.ok { ls with decomp := fun i =>
        (∑ j, ls.leigvecs i j * ls.result j) / ls.eigvals i }) := by
  constructor
  · intro h
    unfold DiagonalizableLS.decomp_result
    rw [dif_pos h]
  · intro h
    unfold DiagonalizableLS.decomp_result
    rw [dif_neg (by rintro ⟨i, hi⟩; exact h i hi)]

/-- A concrete system with a zero eigenvalue (singular case). -/
def decompWitnessBad : DiagonalizableLS ℚ 1 :=
  ⟨1, fun _ => 0, fun _ => 7, fun _ => 0, 1, 1, fun _ => 0⟩

/-- A concrete system with nonzero eigenvalues (regular case). -/
def decompWitnessOk : DiagonalizableLS ℚ 1 :=
  ⟨1, fun _ => 0, fun _ => 7, fun _ => 2, 1, 1, fun _ => 0⟩

theorem decomp_result_spec_witness :
    (DiagonalizableLS.decomp_result decompWitnessBad =
      Except.error TensorError.singularEigenvalue) ∧
    (DiagonalizableLS.decomp_result decompWitnessOk =
      Except.ok { decompWitnessOk with decomp := (fun i =>
        (∑ j, decompWitnessOk.leigvecs i j * decompWitnessOk.result j) /
          decompWitnessOk.eigvals i) }) :=
  ⟨(decomp_result_spec _).1 ⟨0, rfl⟩,
   (decomp_result_spec _).2 (fun i => by norm_num [decompWitnessOk])⟩

/-- **C2.** For a `DiagonalizableLS` whose operator has the eigensystem the
general eigensolver returns (invertible right-eigenvector matrix, all
eigenvalues nonzero so the division step is defined) and any solution vector,
the sequence `decomp_solution(); calc_result(); decomp_result();
calc_solution()` reproduces the original solution exactly, and `calc_result()`
after `decomp_solution()` produces the same result as direct `eval()`. -/
theorem diagonalizable_ls_roundtrip {α : Type*} [Field α] [DecidableEq α]
    {n : ℕ} (ls : DiagonalizableLS α n) (w : Fin n → α)
    (V : Matrix (Fin n) (Fin n) α)
    (heig : ls.matrix * V = V * Matrix.diagonal w) (hdet : V.det ≠ 0)
    (hw : ∀ i, w i ≠ 0) :
    ∃ ls3 : DiagonalizableLS α n,
      ((ls.calc_eigensystem w V).decomp_solution.calc_result).decomp_result =
        Except.ok ls3 ∧
      ls3.calc_solution.solution = ls.solution ∧
      ((ls.calc_eigensystem w V).decomp_solution.calc_result).result =
        ls.eval.result := by
  have hd : ((ls.calc_eigensystem w V).decomp_solution.calc_result).decomp =
      Matrix.mulVec (matInverse V) ls.solution :=
    funext (fun i => sum_eq_mulVec (matInverse V) ls.solution i)
  have hres : ((ls.calc_eigensystem w V).decomp_solution.calc_result).result =
      Matrix.mulVec V (Matrix.mulVec (Matrix.diagonal w)
        (Matrix.mulVec (matInverse V) ls.solution)) := by
    funext k
    show (∑ i, ((ls.calc_eigensystem w V).decomp_solution.calc_result).decomp i *
      w i * V.transpose i k) = _
    calc (∑ i, ((ls.calc_eigensystem w V).decomp_solution.calc_result).decomp i *
          w i * V.transpose i k)
        = ∑ i, V k i * (Matrix.mulVec (Matrix.diagonal w)
            ((ls.calc_eigensystem w V).decomp_solution.calc_result).decomp) i := by
          refine Finset.sum_congr rfl (fun i _ => ?_)
          rw [Matrix.transpose_apply, Matrix.mulVec_diagonal]
          ring
      _ = Matrix.mulVec V (Matrix.mulVec (Matrix.diagonal w)
            ((ls.calc_eigensystem w V).decomp_solution.calc_result).decomp) k :=
          sum_eq_mulVec _ _ k
      _ = _ := by rw [hd]
  have hM : ls.matrix = (V * Matrix.diagonal w) * matInverse V := by
    calc ls.matrix = ls.matrix * (V * matInverse V) := by
          rw [matInverse_mul_self hdet, mul_one]
      _ = (ls.matrix * V) * matInverse V := by rw [Matrix.mul_assoc]
      _ = (V * Matrix.diagonal w) * matInverse V := by rw [heig]
  have heval : ls.eval.result = Matrix.mulVec ls.matrix ls.solution :=
    funext (fun i => sum_eq_mulVec ls.matrix ls.solution i)
  have hres_eval :
      ((ls.calc_eigensystem w V).decomp_solution.calc_result).result =
      ls.eval.result := by
    rw [hres, heval, hM, Matrix.mulVec_mulVec, Matrix.mulVec_mulVec]
  have h0 : ¬∃ i,
      ((ls.calc_eigensystem w V).decomp_solution.calc_result).eigvals i = 0 := by
    rintro ⟨i, hi⟩
    exact hw i hi
  refine ⟨{ ((ls.calc_eigensystem w V).decomp_solution.calc_result) with
      decomp := fun i => (∑ j, matInverse V i j *
        ((ls.calc_eigensystem w V).decomp_solution.calc_result).result j) / w i },
    ?_, ?_, hres_eval⟩
  · unfold DiagonalizableLS.decomp_result
    rw [dif_neg h0]
    rfl
  · have hd' : (fun i => (∑ j, matInverse V i j *
        ((ls.calc_eigensystem w V).decomp_solution.calc_result).result j) / w i) =
        ((ls.calc_eigensystem w V).decomp_solution.calc_result).decomp := by
      funext i
      rw [show (∑ j, matInverse V i j *
          ((ls.calc_eigensystem w V).decomp_solution.calc_result).result j) =
        Matrix.mulVec (matInverse V)
          ((ls.calc_eigensystem w V).decomp_solution.calc_result).result i from
        sum_eq_mulVec _ _ i]
      rw [hres, Matrix.mulVec_mulVec, matInverse_self_mul hdet,
        Matrix.one_mulVec, Matrix.mulVec_diagonal, hd,
        mul_div_cancel_left₀ _ (hw i)]
    show (fun k => ∑ i, ((∑ j, matInverse V i j *
        ((ls.calc_eigensystem w V).decomp_solution.calc_result).result j) / w i) *
        V.transpose i k) = ls.solution
    funext k
    show (∑ i, ((∑ j, matInverse V i j *
        ((ls.calc_eigensystem w V).decomp_solution.calc_result).result j) / w i) *
        V.transpose i k) = ls.solution k
    calc (∑ i, ((∑ j, matInverse V i j *
          ((ls.calc_eigensystem w V).decomp_solution.calc_result).result j) / w i) *
          V.transpose i k)
        = ∑ i, V k i *
            ((ls.calc_eigensystem w V).decomp_solution.calc_result).decomp i := by
          refine Finset.sum_congr rfl (fun i _ => ?_)
          rw [show ((∑ j, matInverse V i j *
              ((ls.calc_eigensystem w V).decomp_solution.calc_result).result j) / w i) =
            ((ls.calc_eigensystem w V).decomp_solution.calc_result).decomp i from
            congrFun hd' i, Matrix.transpose_apply]
          ring
      _ = Matrix.mulVec V
            ((ls.calc_eigensystem w V).decomp_solution.calc_result).decomp k :=
          sum_eq_mulVec _ _ k
      _ = ls.solution k := by
          rw [hd, Matrix.mulVec_mulVec, matInverse_mul_self hdet,
            Matrix.one_mulVec]

theorem diagonalizable_ls_roundtrip_witness :
    ∃ ls3 : DiagonalizableLS ℚ 1,
      ((DiagonalizableLS.calc_eigensystem
          (⟨Matrix.diagonal (fun _ => 2), fun _ => 3, fun _ => 0, fun _ => 0,
            0, 0, fun _ => 0⟩ : DiagonalizableLS ℚ 1)
          (fun _ => 2) 1).decomp_solution.calc_result).decomp_result =
        Except.ok ls3 ∧
      ls3.calc_solution.solution =
        (⟨Matrix.diagonal (fun _ => 2), fun _ => 3, fun _ => 0, fun _ => 0,
          0, 0, fun _ => 0⟩ : DiagonalizableLS ℚ 1).solution ∧
      ((DiagonalizableLS.calc_eigensystem
          (⟨Matrix.diagonal (fun _ => 2), fun _ => 3, fun _ => 0, fun _ => 0,
            0, 0, fun _ => 0⟩ : DiagonalizableLS ℚ 1)
          (fun _ => 2) 1).decomp_solution.calc_result).result =
        (⟨Matrix.diagonal (fun _ => 2), fun _ => 3, fun _ => 0, fun _ => 0,
          0, 0, fun _ => 0⟩ : DiagonalizableLS ℚ 1).eval.result :=
  diagonalizable_ls_roundtrip _ (fun _ => 2) 1
    (by rw [Matrix.mul_one, Matrix.one_mul])
    (by rw [Matrix.det_one]; exact one_ne_zero)
    (fun i => by norm_num)

/-- Modelled from the spec: `HermitianLS.calc_eigensystem()` — stores the
Hermitian eigensolver's output and defines the left eigenvectors as the
conjugate transpose of the right eigenvectors (no separate left-eigenvector
solve); `c` models scalar conjugation of the underlying field. -/
def HermitianLS.calc_eigensystem {α : Type*} [Field α] {n : ℕ}
    (ls : DiagonalizableLS α n) (c : α → α) (w : Fin n → α)
    (V : Matrix (Fin n) (Fin n) α) : DiagonalizableLS α n :=
  { ls with
      eigvals := w
      reigvecs := V.transpose
      leigvecs := Matrix.of (fun i k => c (V k i)) }

/-- Modelled from the spec: `SymmetricLS.calc_eigensystem()` — for
complex-symmetric operators the left eigenvectors relate to the right
eigenvectors by plain transpose under the bilinear normalization. -/
def SymmetricLS.calc_eigensystem {α : Type*} [Field α] {n : ℕ}
    (ls : DiagonalizableLS α n) (w : Fin n → α)
    (V : Matrix (Fin n) (Fin n) α) : DiagonalizableLS α n :=
  { ls with eigvals := w, reigvecs := V.transpose, leigvecs := V.transpose }

theorem matInverse_eq_of_left_inverse {n : ℕ} {α : Type*} [Field α]
    {V C : Matrix (Fin n) (Fin n) α} (h : C * V = 1) : matInverse V = C := by
  have hdet : V.det ≠ 0 := by
    intro h0
    have hmul := congrArg Matrix.det h
    rw [Matrix.det_mul, h0, mul_zero, Matrix.det_one] at hmul
    exact zero_ne_one hmul
  calc matInverse V = 1 * matInverse V := (one_mul _).symm
    _ = (C * V) * matInverse V := by rw [h]
    _ = C * (V * matInverse V) := by rw [Matrix.mul_assoc]
    _ = C := by rw [matInverse_mul_self hdet, mul_one]

/-- **C7.** When the structure-aware eigensolvers return the same eigensystem
`(w, V)` as the general path for the same operator — with the Hermitian
normalization (the conjugate transpose of `V` is a left inverse of `V`),
resp. the complex-symmetric bilinear normalization (the plain transpose is a
left inverse) — `HermitianLS.calc_eigensystem` produces the same left
eigenvectors as `DiagonalizableLS.calc_eigensystem`, and `SymmetricLS`
produces the same left eigenvectors and, for the same solution vector, the
same decomposition coefficients. -/
theorem derived_ls_equiv {α : Type*} [Field α] {n : ℕ}
    (ls : DiagonalizableLS α n) (c : α → α) (w : Fin n → α)
    (V U : Matrix (Fin n) (Fin n) α)
    (hherm : (Matrix.of (fun i k => c (V k i))) * V = 1)
    (hsymm : U.transpose * U = 1) :
    (HermitianLS.calc_eigensystem ls c w V).leigvecs =
      (ls.calc_eigensystem w V).leigvecs ∧
    (SymmetricLS.calc_eigensystem ls w U).leigvecs =
      (ls.calc_eigensystem w U).leigvecs ∧
    (SymmetricLS.calc_eigensystem ls w U).decomp_solution.decomp =
      (ls.calc_eigensystem w U).decomp_solution.decomp := by
  have h1 : matInverse V = Matrix.of (fun i k => c (V k i)) :=
    matInverse_eq_of_left_inverse hherm
  have h2 : matInverse U = U.transpose := matInverse_eq_of_left_inverse hsymm
  refine ⟨?_, ?_, ?_⟩
  · show Matrix.of (fun i k => c (V k i)) = matInverse V
    rw [h1]
  · show U.transpose = matInverse U
    rw [h2]
  · show (fun i => ∑ j, U.transpose i j * ls.solution j) =
      (fun i => ∑ j, matInverse U i j * ls.solution j)
    rw [h2]

/-- A concrete system for the specialization-equivalence witness. -/
def derivedWitnessLS : DiagonalizableLS ℚ 1 :=
  ⟨1, fun _ => 4, fun _ => 0, fun _ => 1, 1, 1, fun _ => 0⟩

theorem derived_ls_equiv_witness :
    (HermitianLS.calc_eigensystem derivedWitnessLS id (fun _ => 1)
        (1 : Matrix (Fin 1) (Fin 1) ℚ)).leigvecs =
      (derivedWitnessLS.calc_eigensystem (fun _ => 1) 1).leigvecs ∧
    (SymmetricLS.calc_eigensystem derivedWitnessLS (fun _ => 1)
        (1 : Matrix (Fin 1) (Fin 1) ℚ)).leigvecs =
      (derivedWitnessLS.calc_eigensystem (fun _ => 1) 1).leigvecs ∧
    (SymmetricLS.calc_eigensystem derivedWitnessLS (fun _ => 1)
        (1 : Matrix (Fin 1) (Fin 1) ℚ)).decomp_solution.decomp =
      (derivedWitnessLS.calc_eigensystem (fun _ => 1) 1).decomp_solution.decomp :=
  derived_ls_equiv derivedWitnessLS id (fun _ => 1) 1 1
    (by
      rw [Matrix.mul_one]
      ext i k
      show (1 : Matrix (Fin 1) (Fin 1) ℚ) k i = (1 : Matrix (Fin 1) (Fin 1) ℚ) i k
      by_cases h : i = k
      · subst h; rfl
      · rw [Matrix.one_apply_ne (fun hk => h hk.symm), Matrix.one_apply_ne h])
    (by rw [Matrix.transpose_one, Matrix.mul_one])

/-- Python exceptions raised by the embedded libics functions. -/
inductive PyError
  | notImplementedError
  | runtimeError
  deriving DecidableEq

/-- Output of the external call `scipy.signal.find_peaks(ar, prominence=0)`:
peak indices with their prominences and base positions. -/
structure FindPeaksOut where
  peaks : List ℕ
  prominences : List ℚ
  leftBases : List ℕ
  rightBases : List ℕ

/-- The `check_npeaks` parameter of `find_peaks_1d_prominence`: `False`,
`True`/`"warning"`, or `"error"`. -/
inductive CheckNpeaks
  | noCheck
  | warning
  | error
  deriving DecidableEq

/-- The result dictionary of `find_peaks_1d_prominence`: raw positions, sliced
peak data and prominences. -/
structure PeaksResult where
  position : List ℚ
  data : List (List ℚ)
  prominence : List ℚ

/-- Mean of a list of rationals (`np.mean`). -/
def meanQ (l : List ℚ) : ℚ := l.sum / l.length

/-- The peak-counting loop of `find_peaks_1d_prominence`: starting from the
already-accepted prefix `pre` of prominences (sorted descending), count how
many further peaks pass the relative-prominence test before the first
failure. -/
def countPeaksAux (relProm : ℚ) : List ℚ → List ℚ → ℕ
  | _, [] => 0
  | pre, p :: rest =>
    if p ≥ relProm * meanQ pre then 1 + countPeaksAux relProm (pre ++ [p]) rest
    else 0

/-- `_npeaks` as determined from `rel_prominence`: the first peak is always
accepted, further ones while their prominence stays above `rel_prominence`
times the mean of the previously accepted ones. -/
def countPeaks (relProm : ℚ) : List ℚ → ℕ
  | [] => 1
  | p :: rest => 1 + countPeaksAux relProm [p] rest

/-- Zip the four arrays returned by the peak-finding backend into one list of
(peak index, prominence, left base, right base) records. -/
def zip4 : List ℕ → List ℚ → List ℕ → List ℕ → List (ℕ × ℚ × ℕ × ℕ)
  | p :: ps, q :: qs, l :: ls, r :: rs => (p, q, l, r) :: zip4 ps qs ls rs
  | _, _, _, _ => []

/-- Insert a record into a list sorted by descending prominence. -/
def insertPromDesc (x : ℕ × ℚ × ℕ × ℕ) :
    List (ℕ × ℚ × ℕ × ℕ) → List (ℕ × ℚ × ℕ × ℕ)
  | [] => [x]
  | y :: ys => if x.2.1 ≥ y.2.1 then x :: y :: ys else y :: insertPromDesc x ys

/-- Sort peak records by descending prominence
(`np.flip(np.argsort(prominences))`; the order among equal prominences is
unspecified in the source). -/
def sortPromDesc : List (ℕ × ℚ × ℕ × ℕ) → List (ℕ × ℚ × ℕ × ℕ)
  | [] => []
  | x :: xs => insertPromDesc x (sortPromDesc xs)

/-- Embedding of `find_peaks_1d_prominence` of `libics/tools/math/signal.py`.
`data` is the 1D input array (an `ArrayData` with default integer coordinates,
so `get_points(0)[idx] = idx`); the external `scipy.signal.find_peaks` call is
passed in as `findPeaksBackend`.  With `edge_peaks=True` the source raises
`NotImplementedError` before anything else (the concatenation code after the
`raise` is unreachable); otherwise peaks are sorted by descending prominence,
the number of requested peaks is determined (raising `RuntimeError` on a
mismatch when `check_npeaks="error"`, only logging a warning otherwise), and
the positions, sliced data windows and prominences of the kept peaks are
returned. -/
def find_peaks_1d_prominence (findPeaksBackend : List ℚ → FindPeaksOut)
    (data : List ℚ) (npeaks : Option ℕ) (rel_prominence : ℚ)
    (check_npeaks : CheckNpeaks) (edge_peaks : Bool) :
    Except PyError PeaksResult :=
  if edge_peaks then Except.error PyError.notImplementedError
  else
    let out := findPeaksBackend data
    let sorted := sortPromDesc
      (zip4 out.peaks out.prominences out.leftBases out.rightBases)
    let proms := sorted.map (fun q => q.2.1)
    let npkE : Except PyError ℕ :=
      match npeaks with
      | none => Except.ok (countPeaks rel_prominence proms)
      | some npk =>
        if check_npeaks = CheckNpeaks.noCheck then Except.ok npk
        else if countPeaks rel_prominence proms ≠ npk ∧
            check_npeaks = CheckNpeaks.error then
          Except.error PyError.runtimeError
        else Except.ok npk
    npkE.map (fun npk =>
      { position := (sorted.take npk).map (fun q => (q.1 : ℚ)),
        data := (sorted.take npk).map
          (fun q => (data.drop q.2.2.1).take (q.2.2.2 + 1 - q.2.2.1)),
        prominence := (sorted.take npk).map (fun q => q.2.1) })

/-- **C9.** For every input array and every combination of the remaining
arguments (and any behaviour of the external peak finder),
`find_peaks_1d_prominence` with `edge_peaks=True` raises
`NotImplementedError` and returns no peak data: the edge-peak branch fails
before any computation, its remaining code being unreachable. -/
theorem find_peaks_edge_peaks_not_implemented
    (findPeaksBackend : List ℚ → FindPeaksOut) (data : List ℚ)
    (npeaks : Option ℕ) (rel_prominence : ℚ) (check_npeaks : CheckNpeaks) :
    find_peaks_1d_prominence findPeaksBackend data npeaks rel_prominence
      check_npeaks true = Except.error PyError.notImplementedError := rfl

/-- The state of a `Memoize` wrapper (`libics/util/function.py`): the cache
dictionary mapping argument tuples to cached values, plus — as specification
instrumentation — the log of argument tuples the wrapped function has actually
been invoked on, in invocation order. -/
structure Memoize (κ ν : Type*) where
  cache : List (κ × ν)
  calls : List κ

/-- Dictionary lookup by argument equality (`args in self.cache`). -/
def lookupCache {κ ν : Type*} [DecidableEq κ] : List (κ × ν) → κ → Option ν
  | [], _ => none
  | (k, v) :: rest, a => if a = k then some v else lookupCache rest a

/-- Embedding of `Memoize.__call__`: on a cache hit return the cached value
without invoking the wrapped function; on a miss invoke it, cache and return
the result.  The wrapped function `f` is indexed by the invocation count so
distinct invocations can be told apart.  (The source's
`isinstance(args, collections.Hashable)` bypass is always passed by tuples of
hashable arguments, the scope of the claim, so only the caching path is
modelled.) -/
def Memoize.call {κ ν : Type*} [DecidableEq κ] (f : ℕ → κ → ν)
    (m : Memoize κ ν) (args : κ) : ν × Memoize κ ν :=
  match lookupCache m.cache args with
  | some v => (v, m)
  | none => (f m.calls.length args,
      ⟨(args, f m.calls.length args) :: m.cache, m.calls ++ [args]⟩)

/-- Run a sequence of calls through a `Memoize` wrapper, collecting the
returned values. -/
def Memoize.run {κ ν : Type*} [DecidableEq κ] (f : ℕ → κ → ν)
    (m : Memoize κ ν) : List κ → List ν × Memoize κ ν
  | [] => ([], m)
  | a :: rest =>
    ((Memoize.call f m a).1 ::
        (Memoize.run f (Memoize.call f m a).2 rest).1,
      (Memoize.run f (Memoize.call f m a).2 rest).2)

/-- Invariant of a `Memoize` state: no argument tuple was invoked twice, and
the cache holds exactly the value the wrapped function produced at the (one)
invocation on that tuple. -/
def MemoInv {κ ν : Type*} [DecidableEq κ] (f : ℕ → κ → ν)
    (m : Memoize κ ν) : Prop :=
  m.calls.Nodup ∧
  ∀ k, lookupCache m.cache k =
    (if k ∈ m.calls then some (f (m.calls.indexOf k) k) else none)

theorem memoize_call_spec {κ ν : Type*} [DecidableEq κ] (f : ℕ → κ → ν)
    (m : Memoize κ ν) (a : κ) (hInv : MemoInv f m) :
    MemoInv f (Memoize.call f m a).2 ∧
    a ∈ (Memoize.call f m a).2.calls ∧
    (Memoize.call f m a).1 =
      f ((Memoize.call f m a).2.calls.indexOf a) a ∧
    (∀ k ∈ m.calls, k ∈ (Memoize.call f m a).2.calls ∧
      (Memoize.call f m a).2.calls.indexOf k = m.calls.indexOf k) := by
  obtain ⟨hnd, hcache⟩ := hInv
  rcases hhit : lookupCache m.cache a with _ | v
  · -- cache miss
    have hmem : a ∉ m.calls := by
      intro hmem
      rw [hcache a, if_pos hmem] at hhit
      exact Option.noConfusion hhit
    have hcall : Memoize.call f m a = (f m.calls.length a,
        ⟨(a, f m.calls.length a) :: m.cache, m.calls ++ [a]⟩) := by
      unfold Memoize.call
      rw [hhit]
    rw [hcall]
    have hidxa : (m.calls ++ [a]).indexOf a = m.calls.length := by
      rw [List.indexOf_append_of_not_mem hmem, List.indexOf_cons_self,
        Nat.add_zero]
    refine ⟨⟨?_, ?_⟩, ?_, ?_, ?_⟩
    · simp [List.nodup_append, hnd, hmem]
    · intro k
      show (if k = a then some (f m.calls.length a)
        else lookupCache m.cache k) = _
      by_cases hk : k = a
      · subst hk
        rw [if_pos rfl, if_pos (by simp), hidxa]
      · rw [if_neg hk, hcache k]
        have hmem2 : k ∈ m.calls ++ [a] ↔ k ∈ m.calls := by simp [hk]
        by_cases hkc : k ∈ m.calls
        · rw [if_pos hkc, if_pos (hmem2.mpr hkc),
            List.indexOf_append_of_mem hkc]
        · rw [if_neg hkc, if_neg (fun h => hkc (hmem2.mp h))]
    · simp
    · show f m.calls.length a = f ((m.calls ++ [a]).indexOf a) a
      rw [hidxa]
    · intro k hk
      exact ⟨by simp [hk], List.indexOf_append_of_mem hk⟩
  · -- cache hit
    have hcall : Memoize.call f m a = (v, m) := by
      unfold Memoize.call
      rw [hhit]
    rw [hcall]
    have hv := hhit
    rw [hcache a] at hv
    by_cases hmem : a ∈ m.calls
    · rw [if_pos hmem] at hv
      refine ⟨⟨hnd, hcache⟩, hmem, ?_, fun k hk => ⟨hk, rfl⟩⟩
      exact (Option.some.injEq _ _ ▸ hv).symm
    · rw [if_neg hmem] at hv
      exact Option.noConfusion hv

theorem memoize_run_inv {κ ν : Type*} [DecidableEq κ] (f : ℕ → κ → ν) :
    ∀ (qs : List κ) (m : Memoize κ ν), MemoInv f m →
    MemoInv f (Memoize.run f m qs).2 ∧
    (∀ k ∈ m.calls, k ∈ (Memoize.run f m qs).2.calls ∧
      (Memoize.run f m qs).2.calls.indexOf k = m.calls.indexOf k) ∧
    (Memoize.run f m qs).1 = qs.map
      (fun q => f ((Memoize.run f m qs).2.calls.indexOf q) q) := by
  intro qs
  induction qs with
  | nil => exact fun m hInv => ⟨hInv, fun k hk => ⟨hk, rfl⟩, rfl⟩
  | cons a rest ih =>
    intro m hInv
    simp only [Memoize.run]
    obtain ⟨hInv1, hamem, hval, hstab1⟩ := memoize_call_spec f m a hInv
    obtain ⟨hInv2, hstab2, houts⟩ := ih (Memoize.call f m a).2 hInv1
    refine ⟨hInv2, ?_, ?_⟩
    · intro k hk
      obtain ⟨hk1, hk2⟩ := hstab1 k hk
      obtain ⟨hk3, hk4⟩ := hstab2 k hk1
      exact ⟨hk3, by rw [hk4, hk2]⟩
    · show (Memoize.call f m a).1 ::
          (Memoize.run f (Memoize.call f m a).2 rest).1 = _
      rw [List.map_cons, houts]
      congr 1
      rw [hval, (hstab2 a hamem).2]

/-- **C10.** For every wrapped function and every sequence of calls with
hashable (here: decidably equal) argument tuples, the `Memoize` wrapper
invokes the wrapped function at most once per distinct argument tuple, every
call returns the value the function produced at its single invocation on an
equal tuple, and consequently for a deterministic function the wrapper is
extensionally equal to the function on the queried arguments. -/
theorem memoize_spec {κ ν : Type*} [DecidableEq κ] (f : ℕ → κ → ν)
    (qs : List κ) :
    (Memoize.run f ⟨[], []⟩ qs).2.calls.Nodup ∧
    (Memoize.run f ⟨[], []⟩ qs).1 = qs.map
      (fun q => f ((Memoize.run f ⟨[], []⟩ qs).2.calls.indexOf q) q) ∧
    (∀ g : κ → ν, (∀ i k, f i k = g k) →
      (Memoize.run f ⟨[], []⟩ qs).1 = qs.map g) := by
  have hInv0 : MemoInv f (⟨[], []⟩ : Memoize κ ν) := by
    refine ⟨List.nodup_nil, fun k => ?_⟩
    rw [if_neg (List.not_mem_nil k)]
    rfl
  obtain ⟨hInv, _, houts⟩ := memoize_run_inv f qs ⟨[], []⟩ hInv0
  refine ⟨hInv.1, houts, fun g hg => ?_⟩
  rw [houts]
  exact List.map_congr_left (fun q _ => hg _ q)

end Libics
